import Mathlib

set_option autoImplicit false

/-
Verification of usd-qtpy against its specification.

The development embeds, in Lean, the parts of the usd-qtpy sources that the
claims are about:

  * usd_qtpy/prim_hierarchy_cache.py  (Proxy, HierarchyCache)
  * usd_qtpy/lib/usd.py               (repath_properties, move_prim_spec, rename_prim)
  * usd_qtpy/lib/qt.py                (schedule, report_error)
  * usd_qtpy/prim_hierarchy_model.py  (HierarchyModel.setData)
  * usd_qtpy/tree/itemtree.py         (ItemTree.add_items, ItemTree.remove_items)

Python dicts keyed by hashable values are modelled as association lists;
the wrapped USD library (Usd.Prim, Sdf.Layer, namespace edits) is modelled
by explicit state records, with each modelling decision documented at the
corresponding definition.
-/

namespace UsdQtpy

/-! ## Association-list maps

Python dict semantics: assignment replaces the value of an existing key and
otherwise appends a new entry; pop removes the entry; membership and lookup
are by key equality. -/

section Maps

variable {κ ν : Type} [DecidableEq κ]

/-- Lookup of a key in an association list, first match wins. -/
def mget (m : List (κ × ν)) (k : κ) : Option ν :=
  (m.find? (fun e => decide (e.1 = k))).map Prod.snd

/-- Membership test of a key, mirroring the Python in operator on dicts. -/
def mhas (m : List (κ × ν)) (k : κ) : Bool :=
  (mget m k).isSome

/-- Dict assignment: replace the value at an existing key in place, otherwise
append a fresh entry at the end. -/
def mset (m : List (κ × ν)) (k : κ) (v : ν) : List (κ × ν) :=
  if mhas m k then m.map (fun e => if e.1 = k then (k, v) else e)
  else m ++ [(k, v)]

/-- Dict pop: remove every entry stored at the key. -/
def mdel (m : List (κ × ν)) (k : κ) : List (κ × ν) :=
  m.filter (fun e => decide (¬ e.1 = k))

theorem mget_nil (k : κ) : mget ([] : List (κ × ν)) k = none := rfl

theorem mget_cons (e : κ × ν) (m : List (κ × ν)) (k : κ) :
    mget (e :: m) k = if e.1 = k then some e.2 else mget m k := by
  by_cases h : e.1 = k <;> simp [mget, List.find?, h]

theorem mget_append_nf (m₁ m₂ : List (κ × ν)) (k : κ) (h : mget m₁ k = none) :
    mget (m₁ ++ m₂) k = mget m₂ k := by
  induction m₁ with
  | nil => simp
  | cons e m ih =>
    rw [mget_cons] at h
    by_cases he : e.1 = k
    · simp [he] at h
    · rw [List.cons_append, mget_cons, if_neg he]
      exact ih (by simpa [he] using h)

end Maps


/-! ## Prim hierarchy cache (usd_qtpy/prim_hierarchy_cache.py)

An absolute Sdf.Path to a prim is modelled as the list of prim names from the
pseudo-root, so the empty list models the absolute root path "/" and
GetParentPath is dropLast. The composed USD stage, as observed through the
Usd.Prim query methods the cache calls, is modelled as a snapshot record. -/

abbrev PrimPath := List String

/-- Sdf.Path.GetParentPath, which maps the absolute root path to itself. -/
def parentPath (p : PrimPath) : PrimPath := p.dropLast

/-- Sdf.Path.name, the name of the last path component (empty for "/"). -/
def pathName (p : PrimPath) : String := (p.getLast?).getD ""

/-- Snapshot of the composed stage as the hierarchy cache queries it. -/
structure Stage where
  /-- Usd.Prim.IsValid for the prim at a path (also its truth value). -/
  valid : PrimPath → Bool
  /-- The cache predicate applied to the prim at a path. -/
  pred : PrimPath → Bool
  /-- Names of the children of the prim at a path, before predicate filtering. -/
  childNames : PrimPath → List String

/-- Usd.Prim: either the default-constructed invalid prim Usd.Prim() (none) or
a prim handle bound to a path whose validity is judged against the stage. -/
abbrev UsdPrim := Option PrimPath

/-- Truth value of a Usd.Prim object, which is its IsValid result. -/
def primValid (s : Stage) : UsdPrim → Bool
  | none => false
  | some p => s.valid p

/-- Usd.Prim.GetFilteredChildren(predicate), as paths. An invalid prim yields
no children. -/
def filteredChildren (s : Stage) (prim : UsdPrim) : List PrimPath :=
  match prim with
  | none => []
  | some p =>
    if s.valid p then
      ((s.childNames p).filter (fun n => s.pred (p ++ [n]))).map (fun n => p ++ [n])
    else []

/-- Proxy from prim_hierarchy_cache.py: a prim handle plus the memoized list
of child paths. -/
structure Proxy where
  prim : UsdPrim
  children : List PrimPath
deriving DecidableEq, Repr

/-- Proxy.refresh_children: recompute the memoized child-path list from the
prim via GetFilteredChildren. -/
def Proxy.refresh_children (s : Stage) (px : Proxy) : Proxy :=
  { px with children := filteredChildren s px.prim }

/-- The Proxy(Usd.Prim()) sentinel stored by HierarchyCache as
self.invalid_prim and returned by get_child for out-of-scope accesses. -/
def invalidPrimProxy : Proxy := { prim := none, children := [] }

/-- HierarchyCache state: the path-to-proxy dict plus the root path. The
root proxy attribute aliases the dict entry at the root path. -/
structure HierarchyCache where
  path_to_proxy : List (PrimPath × Proxy)
  rootPath : PrimPath
deriving Repr

/-- HierarchyCache.register_prim: if the path is absent, insert a fresh proxy
and refresh its memoized children. -/
def register_prim (s : Stage) (m : List (PrimPath × Proxy)) (primArg : UsdPrim) :
    List (PrimPath × Proxy) :=
  -- path = prim.GetPath(); an invalid default prim has the empty path here.
  let path : PrimPath := primArg.getD []
  if mhas m path then m
  else mset m path (Proxy.refresh_children s { prim := primArg, children := [] })

/-- HierarchyCache construction: register only the root prim. -/
def HierarchyCache.init (s : Stage) (rootPath : PrimPath) : HierarchyCache :=
  { path_to_proxy := register_prim s [] (some rootPath), rootPath := rootPath }

/-- HierarchyCache.get_child_count: 0 for a falsy (None) proxy argument or a
proxy holding an invalid prim, otherwise the length of the memoized child
list. A Proxy instance defines no truth override, so only None is falsy. -/
def get_child_count (s : Stage) (px : Option Proxy) : Nat :=
  match px with
  | none => 0
  | some px => if primValid s px.prim then px.children.length else 0

/-- HierarchyCache.get_child. The returned Option Proxy is some for a normal
return and none models an uncaught KeyError on the final dict lookup (which
cannot happen in reachable cache states). -/
def get_child (s : Stage) (c : HierarchyCache) (px : Option Proxy) (index : Nat) :
    HierarchyCache × Option Proxy :=
  match px with
  | none => (c, some invalidPrimProxy)
  | some px =>
    if primValid s px.prim = false then (c, some invalidPrimProxy)
    else if get_child_count s (some px) ≤ index then (c, some invalidPrimProxy)
    else
      let child_path := px.children.getD index []
      let m :=
        if mhas c.path_to_proxy child_path then c.path_to_proxy
        else
          -- child_prim = proxy.get_prim().GetChild(child_path.name)
          let child_prim : UsdPrim := some ((px.prim.getD []) ++ [pathName child_path])
          register_prim s c.path_to_proxy child_prim
      ({ c with path_to_proxy := m }, mget m child_path)

/-- HierarchyCache.delete_subtree: despite its name it pops only the entry at
the given path itself (descendant entries are left in the dict). -/
def delete_subtree (m : List (PrimPath × Proxy)) (path : PrimPath) :
    List (PrimPath × Proxy) :=
  mdel m path

/-- HierarchyCache.invalidate_subtree, with a fuel bound on the recursion
depth; the Python recursion is bounded by the depth of the cached hierarchy
in every reachable state. In the valid-and-predicate case Python refreshes
the proxy object stored at the path in place, which the mset mirrors. -/
def invalidate_subtree (s : Stage) : Nat → List (PrimPath × Proxy) → PrimPath →
    List (PrimPath × Proxy)
  | 0, m, _ => m
  | fuel + 1, m, path =>
    match mget m path with
    | some px =>
      if primValid s px.prim && px.prim.elim false s.pred then
        let m := px.children.foldl (fun m child => invalidate_subtree s fuel m child) m
        mset m path (Proxy.refresh_children s px)
      else
        delete_subtree m path
    | none => m

/-- HierarchyCache.resync_subtrees. The Python argument is a set of paths;
it is modelled as a list in iteration order, with set construction mirrored
by dedup. -/
def resync_subtrees (s : Stage) (fuel : Nat) (c : HierarchyCache)
    (paths : List PrimPath) : HierarchyCache :=
  let root_path : PrimPath := []
  let unique_parents :=
    if root_path ∈ paths then [root_path]
    else (paths.map parentPath).dedup
  let m := unique_parents.foldl (fun m parent_path =>
    match mget m parent_path with
    | none => m
    | some proxy =>
      let original_children := proxy.children
      let proxy := Proxy.refresh_children s proxy
      let m := mset m parent_path proxy
      let new_children := proxy.children
      ((original_children ++ new_children).dedup).foldl
        (fun m child_path => invalidate_subtree s fuel m child_path) m) c.path_to_proxy
  { c with path_to_proxy := m }

/-- Shorthand for the proxy that register_prim creates and refreshes for the
prim at a path. -/
def freshProxy (s : Stage) (p : PrimPath) : Proxy :=
  Proxy.refresh_children s { prim := some p, children := [] }

/-! ## Concrete hierarchy-cache scenario

A stage with the composed hierarchy / -> /World -> /World/Child, fully
expanded through get_child, after which the prim /World (and its subtree)
is removed from the stage and the removal is resynced. -/

/-- Stage snapshot in which /World and /World/Child exist and every prim
satisfies the cache predicate. -/
def stageWC : Stage where
  valid := fun p =>
    p == ([] : PrimPath) || p == ["World"] || p == ["World", "Child"]
  pred := fun _ => true
  childNames := fun p =>
    if p == ([] : PrimPath) then ["World"]
    else if p == ["World"] then ["Child"] else []

/-- Stage snapshot after /World was removed: only the pseudo-root is left. -/
def stageNoWorld : Stage where
  valid := fun p => p == ([] : PrimPath)
  pred := fun _ => true
  childNames := fun _ => []

/-- Cache over the pseudo-root, as the hierarchy model constructs it. -/
def cacheW0 : HierarchyCache := HierarchyCache.init stageWC []

/-- Cache after the tree view expanded the root row (instantiates /World). -/
def cacheW1 : HierarchyCache :=
  (get_child stageWC cacheW0 (mget cacheW0.path_to_proxy []) 0).1

/-- Cache after expanding /World as well (instantiates /World/Child). -/
def cacheW2 : HierarchyCache :=
  (get_child stageWC cacheW1 (mget cacheW1.path_to_proxy ["World"]) 0).1

/-- Cache after the resync notification for the removed /World subtree. -/
def cacheW3 : HierarchyCache := resync_subtrees stageNoWorld 10 cacheW2 [["World"]]

/-! ## Qt helpers (usd_qtpy/lib/qt.py)

The report_error decorator wraps a function connected to USD notice
callbacks. Python exceptions are modelled with an explicit value type that
records the exception class and, for the RuntimeError raised by the
decorator, the chained cause; a call returns the list of exceptions passed
to logging.error together with the Except outcome. -/

/-- Python exception values, as far as report_error distinguishes them. -/
inductive PyExc where
  /-- An arbitrary exception identified by its class name. -/
  | exc (ty : String)
  /-- The RuntimeError raised from the original exception by report_error. -/
  | runtimeErrorFrom (cause : PyExc)
deriving DecidableEq, Repr

/-- The report_error decorator from usd_qtpy/lib/qt.py: run the wrapped
function; pass any raised exception to logging.error and raise a fresh
RuntimeError chained from it. Returns (logged exceptions, outcome). -/
def report_error {α β : Type} (fn : α → Except PyExc β) (a : α) :
    List PyExc × Except PyExc β :=
  match fn a with
  | Except.ok b => ([], Except.ok b)
  | Except.error exc => ([exc], Except.error (PyExc.runtimeErrorFrom exc))

/-! ## Deferred jobs (schedule in usd_qtpy/lib/qt.py)

The schedule helper creates a fresh single-shot QTimer per call, stops the
timer previously stored for the channel, and stores the new one in
SharedObjects.jobs. Timers are modelled by creation index: the state holds
the flags of every timer created so far, the per-channel job registry, and
the log of callbacks the event loop has executed. A fire event models the
event loop delivering the timeout signal of one timer; Qt delivers it only
for a timer that is active (not stopped) and, being single-shot, at most
once. Calls being rapid (within the timeout interval) is modelled by no
fire event occurring between the schedule calls. -/

/-- A QTimer as far as schedule drives it: stopped and already-fired flags. -/
structure QtTimer where
  stopped : Bool
  fired : Bool
deriving DecidableEq, Repr

/-- State of the timer subsystem: every created timer by creation index, the
SharedObjects.jobs registry, and the execution log of callback runs. Each
callback is identified by the timer it is connected to. -/
structure QtLoopState where
  timers : List QtTimer
  jobs : List (String × Nat)
  ran : List Nat
deriving Repr

/-- QTimer.stop on the timer with the given creation index. -/
def stopTimer (ts : List QtTimer) (id : Nat) : List QtTimer :=
  match ts[id]? with
  | some t => ts.set id { t with stopped := true }
  | none => ts

/-- The schedule function: stop the pending job of the channel if any (the
try/except swallows the missing-key case), create a fresh single-shot timer
connected to the callback, start it, and store it as the channel job. -/
def schedule (st : QtLoopState) (channel : String) : QtLoopState :=
  let timers :=
    match mget st.jobs channel with
    | some id => stopTimer st.timers id
    | none => st.timers
  let id := timers.length
  { timers := timers ++ [{ stopped := false, fired := false }],
    jobs := mset st.jobs channel id,
    ran := st.ran }

/-- The event loop delivers the timeout of one timer: only an existing,
unstopped timer fires, and a single-shot timer fires at most once; firing
runs the connected callback. -/
def fireTimer (st : QtLoopState) (id : Nat) : QtLoopState :=
  match st.timers[id]? with
  | some t =>
    if t.stopped || t.fired then st
    else { st with timers := st.timers.set id { t with fired := true },
                   ran := st.ran ++ [id] }
  | none => st

/-- A burst of n consecutive schedule calls on one channel with no timeout
delivery in between. -/
def scheduleBurst (st : QtLoopState) (channel : String) : Nat → QtLoopState
  | 0 => st
  | n + 1 => schedule (scheduleBurst st channel n) channel

/-- An arbitrary sequence of timeout deliveries chosen by the event loop. -/
def fireSeq (st : QtLoopState) (ids : List Nat) : QtLoopState :=
  ids.foldl fireTimer st

/-! ## HierarchyModel.setData (usd_qtpy/prim_hierarchy_model.py)

The Qt model/view plumbing is abstracted away: the relevant inputs are the
column of the index, the edit value (a string; the empty string is falsy in
Python) and the item-data role. The result records the Bool return value and
the new name passed to rename_prim when it is invoked. -/

/-- Qt item data roles, as far as setData distinguishes them. -/
inductive ItemDataRole where
  | editRole
  | otherRole
deriving DecidableEq, Repr

/-- QAbstractItemModel.setData default implementation: returns False and
edits nothing. -/
def superSetData : Bool × Option String := (false, none)

/-- HierarchyModel.setData: on the edit role in column 0, an empty value is
rejected (False, no rename); a non-empty value is passed to rename_prim and
True is returned. Everything else falls through to the base class. -/
def setData (column : Nat) (value : String) (role : ItemDataRole) :
    Bool × Option String :=
  if role = ItemDataRole.editRole then
    if column = 0 then
      if value = "" then (false, none)
      else (true, some value)
    else superSetData
  else superSetData

/-! ## Prim renaming (usd_qtpy/lib/usd.py)

An Sdf.Layer is modelled by the set of paths carrying a prim spec plus its
property specs; a property spec lives at a prim path with a property name
and carries its relationship-target / attribute-connection path list. The
six list-op buckets (addedItems, appendedItems, ...) are transformed
identically by repath_properties, so they are modelled as one list. USD
namespace edits (Sdf.NamespaceEdit Rename / Reparent / ReparentAndRename
followed by Sdf.Layer.Apply) all move the spec subtree rooted at the source
path to the destination path; Apply validates the edit and fails without
mutation when the source has no spec, the destination already has one, or
the destination parent is missing. -/

/-- Component-level path prefix test (equality included). On path strings
this is the test entry == old or entry.startswith(old + "/"): list-of-name
concatenation puts the separator boundary in the right place. -/
def pathStarts (pre p : PrimPath) : Bool := pre.isPrefixOf p

/-- Move a path into the destination namespace when it is the source path or
below it; used both for the spec subtree move and for repathing targets. -/
def remapPath (src dest p : PrimPath) : PrimPath :=
  if pathStarts src p then dest ++ p.drop src.length else p

/-- A property spec location: owning prim path and property name. -/
abbrev PropPath := PrimPath × String

/-- Sdf.Layer as far as rename_prim touches it. -/
structure Layer where
  primSpecs : List PrimPath
  props : List (PropPath × List PrimPath)
deriving DecidableEq, Repr

/-- repath_properties: walk every property spec of the layer and replace each
relationship target or attribute connection that points at the old path or
below it. The Python function additionally returns whether anything changed,
which rename_prim never uses. -/
def repath_properties (layer : Layer) (old_path new_path : PrimPath) : Layer :=
  { layer with
    props := layer.props.map (fun pr => (pr.1, pr.2.map (remapPath old_path new_path))) }

/-- Modelled library behaviour of Sdf.Layer.Apply for the single namespace
edit built by move_prim_spec: the edit is valid iff the source spec exists,
no spec sits at the destination, and the destination parent exists (or is
the layer root). -/
def namespaceEditOk (layer : Layer) (src dest : PrimPath) : Bool :=
  decide (src ∈ layer.primSpecs) &&
  !(decide (dest ∈ layer.primSpecs)) &&
  (decide (parentPath dest = ([] : PrimPath)) || decide (parentPath dest ∈ layer.primSpecs))

/-- The successful namespace edit: move the spec subtree (prim specs and
property spec locations) from the source path to the destination path. -/
def applyNamespaceEdit (layer : Layer) (src dest : PrimPath) : Layer :=
  { primSpecs := layer.primSpecs.map (remapPath src dest),
    props := layer.props.map (fun pr => ((remapPath src dest pr.1.1, pr.1.2), pr.2)) }

/-- move_prim_spec: no-op returning None when source equals destination
(Python falls through with a bare return); on a valid edit move the subtree,
repath properties and return True; otherwise log a warning and return False
leaving the layer unchanged. -/
def move_prim_spec (layer : Layer) (src_prim_path dest_prim_path : PrimPath) :
    Layer × Option Bool :=
  if src_prim_path = dest_prim_path then (layer, none)
  else if namespaceEditOk layer src_prim_path dest_prim_path then
    (repath_properties (applyNamespaceEdit layer src_prim_path dest_prim_path)
       src_prim_path dest_prim_path,
     some true)
  else (layer, some false)

/-- Usd.EditTarget as rename_prim uses it: MapToSpecPath. For a plain layer
edit target this is the identity; for a variant edit target it maps into the
variant namespace. -/
structure EditTarget where
  mapToSpecPath : PrimPath → PrimPath

/-- The stage as rename_prim observes it: its layer stack and edit target. -/
structure UsdStage where
  layerStack : List Layer
  editTarget : EditTarget

/-- Sdf.Path.ReplaceName: the sibling path with the new name. -/
def replaceName (p : PrimPath) (new_name : String) : PrimPath :=
  p.dropLast ++ [new_name]

/-- The source/destination spec paths rename_prim edits: the prim path and
its renamed sibling, both remapped through the edit target when the edit
target maps the source elsewhere (e.g. into a variant). -/
def rename_paths (stage : UsdStage) (prim_path : PrimPath) (new_name : String) :
    PrimPath × PrimPath :=
  let new_prim_path := replaceName prim_path new_name
  let remapped := stage.editTarget.mapToSpecPath prim_path
  if prim_path ≠ remapped then
    (remapped, stage.editTarget.mapToSpecPath new_prim_path)
  else (prim_path, new_prim_path)

/-- rename_prim: True immediately when the name is unchanged; otherwise move
the prim spec in every layer of the stage layer stack that has a spec at the
(remapped) prim path, ignoring per-layer move failures, and return True.
The final deactivate/activate workaround for renames inside a variant set
toggles composition state on the stage, not layer contents, and is outside
this layer model. -/
def rename_prim (stage : UsdStage) (prim_path : PrimPath) (new_name : String) :
    List Layer × Bool :=
  if pathName prim_path = new_name then (stage.layerStack, true)
  else
    let pq := rename_paths stage prim_path new_name
    let layers := stage.layerStack.map (fun layer =>
      if decide (pq.1 ∈ layer.primSpecs) then (move_prim_spec layer pq.1 pq.2).1
      else layer)
    (layers, true)

/-- The default empty layer, used only as a getD fallback. -/
def emptyLayer : Layer := { primSpecs := [], props := [] }

/-- Concrete layer with prim specs at both /Old and /New. -/
def layerOldNew : Layer := { primSpecs := [["Old"], ["New"]], props := [] }

/-- Stage whose edit target is a plain layer (identity path mapping) holding
only layerOldNew. -/
def stageOldNew : UsdStage :=
  { layerStack := [layerOldNew], editTarget := { mapToSpecPath := fun p => p } }

/-! ## ItemTree (usd_qtpy/tree/itemtree.py)

TreeItem objects do not override __eq__ or __hash__, so dict keys compare by
object identity; an item is modelled as an identity tag plus its key. The
three dicts of ItemTree are association lists; the root item is stored
separately and always has an entry in the parent-to-children map. Exceptions
carry the state at raise time: every operation returns the tree together
with an Except outcome, and validation that happens before any mutation
returns the unchanged input tree. The base-class _make_initial_children_value
returns an empty list, so the LazyItemTree None placeholders never occur and
children values are plain lists. -/

/-- A TreeItem: Python object identity plus the hashable key. -/
structure TreeItem where
  id : Nat
  key : Nat
deriving DecidableEq, Repr

/-- The ItemTree state: root item and the three internal dicts. -/
structure ItemTree where
  root : TreeItem
  parent_to_children : List (TreeItem × List TreeItem)
  child_to_parent : List (TreeItem × TreeItem)
  key_to_item : List (Nat × TreeItem)
deriving DecidableEq, Repr

/-- The exceptions ItemTree raises. -/
inductive TreeExc where
  | itemLookupError
  | valueError
  | keyError
deriving DecidableEq, Repr

/-- ItemTree construction with the given root item. -/
def ItemTree.init (root_item : TreeItem) : ItemTree :=
  { root := root_item,
    parent_to_children := [(root_item, [])],
    child_to_parent := [],
    key_to_item := [(root_item.key, root_item)] }

/-- The first loop of add_items: collect the not-yet-present items, raising
ValueError when a new item key shadows an existing key or duplicates the key
of another new item in the batch. No state is mutated here. -/
def collectNewItems (t : ItemTree) :
    List TreeItem → List Nat → List TreeItem → Except TreeExc (List TreeItem)
  | [], _, acc => Except.ok acc.reverse
  | item :: rest, newKeys, acc =>
    if mhas t.child_to_parent item then collectNewItems t rest newKeys acc
    else if mhas t.key_to_item item.key then Except.error TreeExc.valueError
    else if item.key ∈ newKeys then Except.error TreeExc.valueError
    else collectNewItems t rest (item.key :: newKeys) (item :: acc)

/-- The per-item registration of the second loop of add_items. -/
def registerNewItem (parent : TreeItem) (t : ItemTree) (item : TreeItem) : ItemTree :=
  { t with key_to_item := mset t.key_to_item item.key item,
           parent_to_children := mset t.parent_to_children item [],
           child_to_parent := mset t.child_to_parent item parent }

/-- The mutation phase of add_items, after the parent check. -/
def addItemsChecked (t : ItemTree) (items : List TreeItem) (parent : TreeItem) :
    ItemTree × Except TreeExc (List TreeItem) :=
  match collectNewItems t items [] [] with
  | Except.error e => (t, Except.error e)
  | Except.ok newItems =>
    let t1 := newItems.foldl (registerNewItem parent) t
    let extended :=
      mset t1.parent_to_children parent
        ((mget t1.parent_to_children parent).getD [] ++ newItems)
    ({ t1 with parent_to_children := extended }, Except.ok newItems)

/-- ItemTree.add_items. The items argument is a list (the Python signature
also accepts a single item, which is wrapped into a list first); a None
parent means the root item. -/
def add_items (t : ItemTree) (items : List TreeItem) (parent? : Option TreeItem) :
    ItemTree × Except TreeExc (List TreeItem) :=
  if items = [] then (t, Except.ok [])
  else
    match parent? with
    | some parent =>
      if mhas t.parent_to_children parent then addItemsChecked t items parent
      else (t, Except.error TreeExc.itemLookupError)
    | none => addItemsChecked t items t.root

/-- The while loop of the reparent branch of remove_items: climb the current
parent chain past items that are scheduled for removal. The loop is
unbounded in Python; fuel is the common recursion bound of the model and
none models fuel exhaustion (unreachable with sufficient fuel on
well-formed trees). The error is the uncaught KeyError of a missing parent
entry. -/
def climbWhile (t : ItemTree) (itemsAll : List TreeItem) :
    Nat → TreeItem → Option (Except TreeExc TreeItem)
  | 0, _ => none
  | fuel + 1, p =>
    if p ∈ itemsAll then
      match mget t.child_to_parent p with
      | some q => climbWhile t itemsAll fuel q
      | none => some (Except.error TreeExc.keyError)
    else some (Except.ok p)

mutual

/-- ItemTree.remove_items: validate the child action (ValueError before any
mutation), discard the root item from the input set, and process each
remaining item in iteration order (a Python set iterates in some
implementation order, so the order is an explicit list here). The
recursion of the delete action is modelled with fuel; none is fuel
exhaustion. -/
def remove_items (fuel : Nat) (t : ItemTree) (items : List TreeItem)
    (childAction : String) : Option (ItemTree × Except TreeExc (List TreeItem)) :=
  match fuel with
  | 0 => none
  | fuel + 1 =>
    if childAction = "delete" ∨ childAction = "reparent" then
      let items2 := items.filter (fun i => decide (¬ i = t.root))
      if items2 = [] then some (t, Except.ok [])
      else removeLoop fuel t items2 items2 childAction []
    else some (t, Except.error TreeExc.valueError)

/-- The for loop of remove_items. The pending list is what remains to be
processed; itemsAll is the full (root-discarded) input set, which the
reparent while-loop consults. A raised exception propagates immediately
with the state mutated so far. The final removal block pops the item from
its parent's child list and from all three dicts. -/
def removeLoop (fuel : Nat) (t : ItemTree) (pending itemsAll : List TreeItem)
    (childAction : String) (removed : List TreeItem) :
    Option (ItemTree × Except TreeExc (List TreeItem)) :=
  match pending with
  | [] => some (t, Except.ok removed)
  | item :: rest =>
    -- children = self._get_item_children(item): ItemLookupError when absent
    match mget t.parent_to_children item with
    | none => some (t, Except.error TreeExc.itemLookupError)
    | some children =>
      let step : Option (ItemTree × Except TreeExc (List TreeItem)) :=
        if children = [] then some (t, Except.ok removed)
        else if childAction = "delete" then
          -- removed.extend(self.remove_items(children, childAction='delete'))
          match remove_items fuel t children "delete" with
          | none => none
          | some (t2, Except.error e) => some (t2, Except.error e)
          | some (t2, Except.ok rs) => some (t2, Except.ok (removed ++ rs))
        else
          -- newParent = self._child_to_parent[item]; while newParent in items: ...
          match mget t.child_to_parent item with
          | none => some (t, Except.error TreeExc.keyError)
          | some p0 =>
            match climbWhile t itemsAll fuel p0 with
            | none => none
            | some (Except.error e) => some (t, Except.error e)
            | some (Except.ok newParent) =>
              -- self._parent_to_children[newParent].extend(children)
              -- self._child_to_parent.update((c, newParent) for c in children)
              match mget t.parent_to_children newParent with
              | none => some (t, Except.error TreeExc.keyError)
              | some npc =>
                some ({ t with
                    parent_to_children :=
                      mset t.parent_to_children newParent (npc ++ children),
                    child_to_parent :=
                      children.foldl (fun m c => mset m c newParent)
                        t.child_to_parent },
                  Except.ok removed)
      match step with
      | none => none
      | some (t2, Except.error e) => some (t2, Except.error e)
      | some (t2, Except.ok removed2) =>
        -- itemParent = self._child_to_parent.pop(item)
        match mget t2.child_to_parent item with
        | none => some (t2, Except.error TreeExc.keyError)
        | some itemParent =>
          -- self._parent_to_children[itemParent].remove(item)
          match mget t2.parent_to_children itemParent with
          | none => some (t2, Except.error TreeExc.keyError)
          | some plist =>
            let t3 : ItemTree := { t2 with
              parent_to_children :=
                mdel (mset t2.parent_to_children itemParent (plist.erase item)) item,
              child_to_parent := mdel t2.child_to_parent item,
              key_to_item := mdel t2.key_to_item item.key }
            removeLoop fuel t3 rest itemsAll childAction (removed2 ++ [item])

end

/-- A timer slot that exists and is stopped. -/
def stoppedAt (ts : List QtTimer) (id : Nat) : Prop :=
  ∃ t, ts[id]? = some t ∧ t.stopped = true

/-- Concrete layer for the C2 witness: specs at /Old, /Old/Sub and /Other,
with a relationship on /Other targeting /Old/Sub and an unrelated path. -/
def layerRename : Layer :=
  { primSpecs := [["Old"], ["Old", "Sub"], ["Other"]],
    props := [((["Other"], "rel"), [["Old", "Sub"], ["Elsewhere"]])] }

/-- Single-layer stage with an identity (plain layer) edit target. -/
def stageRename : UsdStage :=
  { layerStack := [layerRename], editTarget := { mapToSpecPath := fun p => p } }

/-- The not-yet-present items of a batch, in input order. -/
def newFilter (t : ItemTree) (items : List TreeItem) : List TreeItem :=
  items.filter (fun i => !(mhas t.child_to_parent i))

/-- The root item of the concrete witness tree. -/
def rootItem : TreeItem := { id := 0, key := 0 }

/-- A fresh tree over rootItem. -/
def tree0 : ItemTree := ItemTree.init rootItem

/-- Two fresh items for the witness batch. -/
def itemA : TreeItem := { id := 1, key := 1 }

/-- Second fresh item of the witness batch. -/
def itemB : TreeItem := { id := 2, key := 2 }

/-- A concrete three-node chain root -> A -> B for exercising removal. -/
def treeC8 : ItemTree :=
  { root := rootItem,
    parent_to_children := [(rootItem, [itemA]), (itemA, [itemB]), (itemB, [])],
    child_to_parent := [(itemA, rootItem), (itemB, itemA)],
    key_to_item := [(0, rootItem), (1, itemA), (2, itemB)] }

/-- Depth measure for treeC8 (decreasing towards the root). -/
def depthC8 (x : TreeItem) : Nat :=
  if x = rootItem then 0 else if x = itemA then 1 else 2


/-! ## Specification vocabulary for remove_items

Liveness, ancestor chains and the well-formedness invariant of an ItemTree,
used to state and prove the removal claims. The depth measure witnesses
acyclicity of the parent relation; B bounds it on tree members. -/

/-- An item is live when the parent-to-children dict has an entry for it
(Python membership test of ItemTree). -/
def live (t : ItemTree) (x : TreeItem) : Prop :=
  mhas t.parent_to_children x = true

instance (t : ItemTree) (x : TreeItem) : Decidable (live t x) := by
  unfold live
  infer_instance

/-- The chain of ancestors of an item, nearest parent first, following the
child-to-parent dict, bounded by fuel. -/
def ancChain (t : ItemTree) : Nat → TreeItem → List TreeItem
  | 0, _ => []
  | fuel + 1, x =>
    match mget t.child_to_parent x with
    | some p => p :: ancChain t fuel p
    | none => []

/-- The first element of a list outside the removal set: the target the
reparent while-loop seeks along a parent chain. -/
def firstOutside (S : List TreeItem) : List TreeItem → Option TreeItem
  | [] => none
  | a :: rest => if a ∈ S then firstOutside S rest else some a

/-- Well-formedness of an ItemTree: the root is live and parentless, the two
structural dicts are mutually consistent, children lists are duplicate-free
inverses of the parent map, and a depth measure bounded by B decreases
strictly towards the root (acyclicity). -/
structure TreeWF (t : ItemTree) (depth : TreeItem → Nat) (B : Nat) : Prop where
  root_live : mhas t.parent_to_children t.root = true
  root_no_parent : mget t.child_to_parent t.root = none
  live_iff : ∀ x, x ≠ t.root →
    mhas t.parent_to_children x = mhas t.child_to_parent x
  parent_live : ∀ c p, mget t.child_to_parent c = some p →
    mhas t.parent_to_children p = true
  children_mem : ∀ p l, mget t.parent_to_children p = some l →
    ∀ c, c ∈ l ↔ mget t.child_to_parent c = some p
  children_nodup : ∀ p l, mget t.parent_to_children p = some l → l.Nodup
  depth_lt : ∀ c p, mget t.child_to_parent c = some p → depth p < depth c
  depth_le : ∀ c, mhas t.parent_to_children c = true → depth c ≤ B

/-- Weakened well-formedness during the removal of item: the children-list
entry of item itself may be stale (its members were already detached), all
other invariants hold. -/
structure TreeWFx (t : ItemTree) (item : TreeItem) (depth : TreeItem → Nat)
    (B : Nat) : Prop where
  root_live : mhas t.parent_to_children t.root = true
  root_no_parent : mget t.child_to_parent t.root = none
  live_iff : ∀ x, x ≠ t.root →
    mhas t.parent_to_children x = mhas t.child_to_parent x
  parent_live : ∀ c p, mget t.child_to_parent c = some p →
    mhas t.parent_to_children p = true
  children_mem : ∀ p l, p ≠ item → mget t.parent_to_children p = some l →
    ∀ c, c ∈ l ↔ mget t.child_to_parent c = some p
  children_nodup : ∀ p l, p ≠ item → mget t.parent_to_children p = some l →
    l.Nodup
  depth_lt : ∀ c p, mget t.child_to_parent c = some p → depth p < depth c
  depth_le : ∀ c, mhas t.parent_to_children c = true → depth c ≤ B

/-- The nearest element of the parent chain starting at p (p included) that
is outside the removal set. -/
def resolveOut (t0 : ItemTree) (B : Nat) (S : List TreeItem) (p : TreeItem) :
    Option TreeItem :=
  firstOutside S (p :: ancChain t0 (B + 1) p)

/-- The parent pointer of a surviving item after the members of P (taken
from the full removal set S) have been processed in reparent mode: the
original parent if it has not been processed, else the nearest original
ancestor outside S. -/
def currentParent (t0 : ItemTree) (B : Nat) (S P : List TreeItem)
    (x : TreeItem) : Option TreeItem :=
  match mget t0.child_to_parent x with
  | none => none
  | some p => if p ∈ P then resolveOut t0 B S p else some p

/-! ## Theorems

All claim theorems, their witnesses and counterexamples, and the supporting
lemmas follow the definitions above. -/

section MapLemmas

variable {κ ν : Type} [DecidableEq κ]

theorem mhas_iff (m : List (κ × ν)) (k : κ) :
    mhas m k = true ↔ ∃ v, mget m k = some v := by
  unfold mhas
  cases h : mget m k <;> simp

theorem mhas_eq_false (m : List (κ × ν)) (k : κ) :
    mhas m k = false ↔ mget m k = none := by
  unfold mhas
  cases h : mget m k <;> simp

theorem mget_append_single_ne (m : List (κ × ν)) (k k' : κ) (v : ν) (h : k ≠ k') :
    mget (m ++ [(k, v)]) k' = mget m k' := by
  induction m with
  | nil => simp [mget_cons, mget_nil, h]
  | cons e m ih =>
    rw [List.cons_append, mget_cons, mget_cons]
    by_cases he' : e.1 = k'
    · simp [he']
    · simp [he', ih]

theorem mget_replace_found (m : List (κ × ν)) (k : κ) (v : ν)
    (h : mget m k ≠ none) :
    mget (m.map (fun e => if e.1 = k then (k, v) else e)) k = some v := by
  induction m with
  | nil => simp [mget] at h
  | cons e m ih =>
    rw [mget_cons] at h
    by_cases he : e.1 = k
    · simp [mget_cons, he]
    · simp only [List.map_cons, if_neg he, mget_cons, if_neg he]
      exact ih (by simpa [he] using h)

theorem mget_replace_ne (m : List (κ × ν)) (k k' : κ) (v : ν) (h : k ≠ k') :
    mget (m.map (fun e => if e.1 = k then (k, v) else e)) k' = mget m k' := by
  induction m with
  | nil => rfl
  | cons e m ih =>
    by_cases he : e.1 = k
    · have hne : ¬ (k = k') := h
      simp [mget_cons, he, hne, ih]
    · simp only [List.map_cons, if_neg he, mget_cons]
      by_cases he' : e.1 = k'
      · simp [he']
      · simp [he', ih]

theorem mget_mset_self (m : List (κ × ν)) (k : κ) (v : ν) :
    mget (mset m k v) k = some v := by
  unfold mset
  by_cases h : mhas m k = true
  · rw [if_pos h]
    refine mget_replace_found m k v ?_
    rw [mhas_iff] at h
    obtain ⟨w, hw⟩ := h
    simp [hw]
  · rw [if_neg h]
    have hn : mget m k = none := (mhas_eq_false m k).1 (by simpa using h)
    rw [mget_append_nf m _ k hn, mget_cons]
    simp

theorem mget_mset_ne (m : List (κ × ν)) (k k' : κ) (v : ν) (h : k ≠ k') :
    mget (mset m k v) k' = mget m k' := by
  unfold mset
  by_cases hm : mhas m k = true
  · rw [if_pos hm]
    exact mget_replace_ne m k k' v h
  · rw [if_neg hm]
    exact mget_append_single_ne m k k' v h

theorem mget_mdel_self (m : List (κ × ν)) (k : κ) : mget (mdel m k) k = none := by
  induction m with
  | nil => rfl
  | cons e m ih =>
    by_cases he : e.1 = k
    · simpa [mdel, he] using ih
    · simpa [mdel, mget_cons, he] using ih

theorem mget_mdel_ne (m : List (κ × ν)) (k k' : κ) (h : k ≠ k') :
    mget (mdel m k) k' = mget m k' := by
  induction m with
  | nil => rfl
  | cons e m ih =>
    have hstep : mdel (e :: m) k = if e.1 = k then mdel m k else e :: mdel m k := by
      by_cases he : e.1 = k <;> simp [mdel, List.filter, he]
    rw [hstep, mget_cons]
    by_cases he : e.1 = k
    · have hne : ¬ e.1 = k' := by rw [he]; exact h
      simp [he, hne, h, ih]
    · rw [if_neg he, mget_cons]
      by_cases he' : e.1 = k'
      · simp [he']
      · simp [he', ih]
end MapLemmas

/-! ### C1: stale entries survive resync_subtrees (code bug) -/

/-- C1: the claim states that after resync_subtrees no stale path-to-proxy
entry remains anywhere under a resynced subtree. The code violates this:
delete_subtree pops only the entry at the subtree root, so after resyncing
the removed prim /World, the instantiated descendant entry /World/Child
stays cached while /World itself is evicted, and the prim held by the stale
entry is invalid on the changed stage. -/
theorem C1_stale_descendant_after_resync :
    mhas cacheW2.path_to_proxy ["World", "Child"] = true ∧
    mhas cacheW3.path_to_proxy ["World"] = false ∧
    mhas cacheW3.path_to_proxy ["World", "Child"] = true ∧
    primValid stageNoWorld
      ((mget cacheW3.path_to_proxy ["World", "Child"]).getD invalidPrimProxy).prim
      = false := by
  refine ⟨by decide, by decide, by decide, by decide⟩

/-! ### C3: lazy population and memoization of the hierarchy cache -/

/-- C3: constructing the cache registers only the root prim proxy; a child
proxy is created and inserted on the first get_child that reaches its path,
with its child list computed once at registration; a get_child resolving an
already-cached child path returns the stored proxy and leaves the cache
(including every memoized child list) unchanged. -/
theorem C3_lazy_population_memoization :
    (∀ (s : Stage) (r : PrimPath),
      (HierarchyCache.init s r).path_to_proxy = [(r, freshProxy s r)]) ∧
    (∀ (s : Stage) (c : HierarchyCache) (px : Proxy) (pp : PrimPath) (nm : String)
        (i : Nat),
      px.prim = some pp →
      primValid s px.prim = true →
      i < px.children.length →
      px.children.getD i [] = pp ++ [nm] →
      mhas c.path_to_proxy (pp ++ [nm]) = false →
      get_child s c (some px) i =
        (⟨mset c.path_to_proxy (pp ++ [nm]) (freshProxy s (pp ++ [nm])), c.rootPath⟩,
         some (freshProxy s (pp ++ [nm])))) ∧
    (∀ (s : Stage) (c : HierarchyCache) (px : Proxy) (cp : PrimPath) (i : Nat),
      primValid s px.prim = true →
      i < px.children.length →
      px.children.getD i [] = cp →
      mhas c.path_to_proxy cp = true →
      get_child s c (some px) i = (c, mget c.path_to_proxy cp)) := by
  refine ⟨?_, ?_, ?_⟩
  · intro s r
    simp [HierarchyCache.init, register_prim, freshProxy, mhas, mget, mset]
  · intro s c px pp nm i hprim hval hlt hchild hmiss
    have hname : pathName (pp ++ [nm]) = nm := by
      simp [pathName]
    have hcount : ¬ (get_child_count s (some px) ≤ i) := by
      simp [get_child_count, hval]
      omega
    have hv' : ¬ (primValid s px.prim = false) := by simp [hval]
    have hmiss' : ¬ (mhas c.path_to_proxy (pp ++ [nm]) = true) := by simp [hmiss]
    simp only [get_child, hchild]
    rw [if_neg hv', if_neg hcount, if_neg hmiss']
    simp only [hprim, Option.getD_some, hname]
    unfold register_prim
    simp only [Option.getD_some]
    rw [if_neg hmiss']
    rw [mget_mset_self]
    simp [freshProxy]
  · intro s c px cp i hval hlt hchild hhit
    have hcount : ¬ (get_child_count s (some px) ≤ i) := by
      simp [get_child_count, hval]
      omega
    have hv' : ¬ (primValid s px.prim = false) := by simp [hval]
    simp only [get_child, hchild]
    rw [if_neg hv', if_neg hcount, if_pos hhit]

/-- C3 witness: in the concrete scenario, resolving the already-cached child
path /World from the expanded cache returns the stored proxy and leaves the
cache unchanged. -/
theorem C3_witness :
    mhas cacheW1.path_to_proxy ["World"] = true ∧
    get_child stageWC cacheW1 (some { prim := some [], children := [["World"]] }) 0 =
      (cacheW1, mget cacheW1.path_to_proxy ["World"]) := by
  refine ⟨by decide, ?_⟩
  exact C3_lazy_population_memoization.2.2 stageWC cacheW1
    { prim := some [], children := [["World"]] } ["World"] 0
    (by decide) (by decide) (by decide) (by decide)

/-! ### C9: totality of get_child and get_child_count at the model interface -/

/-- C9: get_child returns the designated invalid-prim proxy, without raising,
whenever the proxy argument is falsy (None), its prim is invalid, or the
index is at least the child count; get_child_count returns 0 for a falsy
proxy or one holding an invalid prim. -/
theorem C9_get_child_total :
    ∀ (s : Stage) (c : HierarchyCache) (px : Proxy) (i : Nat),
      get_child s c none i = (c, some invalidPrimProxy) ∧
      (primValid s px.prim = false →
        get_child s c (some px) i = (c, some invalidPrimProxy)) ∧
      (get_child_count s (some px) ≤ i →
        get_child s c (some px) i = (c, some invalidPrimProxy)) ∧
      get_child_count s none = 0 ∧
      (primValid s px.prim = false → get_child_count s (some px) = 0) := by
  intro s c px i
  refine ⟨rfl, ?_, ?_, rfl, ?_⟩
  · intro h
    simp [get_child, h]
  · intro h
    by_cases hv : primValid s px.prim = false
    · simp [get_child, hv]
    · simp only [get_child]
      rw [if_neg hv, if_pos h]
  · intro h
    simp [get_child_count, h]

/-- C9 witness: concrete out-of-range and invalid-prim accesses on the
expanded cache all return the invalid-prim proxy, and the counts are 0. -/
theorem C9_witness :
    get_child stageWC cacheW2 none 3 = (cacheW2, some invalidPrimProxy) ∧
    get_child stageWC cacheW2 (some invalidPrimProxy) 0 =
      (cacheW2, some invalidPrimProxy) ∧
    get_child stageWC cacheW2 (some { prim := some [], children := [["World"]] }) 7 =
      (cacheW2, some invalidPrimProxy) ∧
    get_child_count stageWC (some invalidPrimProxy) = 0 := by
  obtain ⟨h1, h2, h3, _, h5⟩ :=
    C9_get_child_total stageWC cacheW2 invalidPrimProxy 0
  obtain ⟨_, _, h3b, _, _⟩ :=
    C9_get_child_total stageWC cacheW2 { prim := some [], children := [["World"]] } 7
  exact ⟨h1, h2 (by decide), h3b (by decide), h5 (by decide)⟩

/-! ### C5: empty rename rejected by setData -/

/-- C5: for a column-0 index under the edit role, setData with an empty value
returns False and does not invoke rename_prim, so the prim keeps its name;
setData with a non-empty value invokes rename_prim with that value and
returns True. -/
theorem C5_setData_empty_rejected :
    ∀ (value : String),
      setData 0 "" ItemDataRole.editRole = (false, none) ∧
      (value ≠ "" →
        setData 0 value ItemDataRole.editRole = (true, some value)) := by
  intro value
  refine ⟨rfl, ?_⟩
  intro h
  simp [setData, h]

/-- C5 witness at a concrete non-empty rename value. -/
theorem C5_witness :
    ("NewName" : String) ≠ "" ∧
    setData 0 "NewName" ItemDataRole.editRole = (true, some "NewName") := by
  exact ⟨by decide, (C5_setData_empty_rejected "NewName").2 (by decide)⟩

/-! ### C6: report_error logs and wraps, it does not re-raise the original -/

/-- C6 counterexample: the claim states the original exception is re-raised.
The decorator instead raises a fresh RuntimeError chained from the original:
for a wrapped function raising ValueError, the propagated exception is the
RuntimeError wrapper, not the ValueError itself. -/
theorem C6_counterexample :
    (fun (_ : Unit) => (Except.error (PyExc.exc "ValueError") : Except PyExc Unit)) ()
      = Except.error (PyExc.exc "ValueError") ∧
    (report_error
        (fun (_ : Unit) => (Except.error (PyExc.exc "ValueError") : Except PyExc Unit))
        ()).2
      ≠ Except.error (PyExc.exc "ValueError") := by
  refine ⟨rfl, ?_⟩
  simp [report_error]

/-- C6 amended: a function wrapped with report_error returns exactly the
unwrapped result when no exception occurs; when the unwrapped function
raises, the exception is logged and a RuntimeError chained from it is
propagated to the caller rather than the exception being swallowed. -/
theorem C6_report_error_logs_and_wraps :
    ∀ {α β : Type} (fn : α → Except PyExc β) (a : α),
      (∀ b, fn a = Except.ok b → report_error fn a = ([], Except.ok b)) ∧
      (∀ e, fn a = Except.error e →
        report_error fn a = ([e], Except.error (PyExc.runtimeErrorFrom e))) := by
  intro α β fn a
  constructor
  · intro b hb
    simp [report_error, hb]
  · intro e he
    simp [report_error, he]

/-- C6 witness: concrete success and failure calls through report_error. -/
theorem C6_witness :
    report_error (fun (n : Nat) => (Except.ok (n + 1) : Except PyExc Nat)) 3
      = ([], Except.ok 4) ∧
    report_error (fun (_ : Nat) => (Except.error (PyExc.exc "TfError") : Except PyExc Nat)) 3
      = ([PyExc.exc "TfError"],
         Except.error (PyExc.runtimeErrorFrom (PyExc.exc "TfError"))) := by
  refine ⟨?_, ?_⟩
  · exact (C6_report_error_logs_and_wraps
      (fun (n : Nat) => (Except.ok (n + 1) : Except PyExc Nat)) 3).1 4 rfl
  · exact (C6_report_error_logs_and_wraps
      (fun (_ : Nat) => (Except.error (PyExc.exc "TfError") : Except PyExc Nat)) 3).2
      (PyExc.exc "TfError") rfl

/-! ### C4: schedule debounces rapid calls on one channel -/

theorem stopTimer_none (ts : List QtTimer) (id : Nat) (h : ts[id]? = none) :
    stopTimer ts id = ts := by
  simp [stopTimer, h]

theorem stopTimer_some (ts : List QtTimer) (id : Nat) (t : QtTimer)
    (h : ts[id]? = some t) :
    stopTimer ts id = ts.set id { t with stopped := true } := by
  simp [stopTimer, h]

theorem fireTimer_missing (st : QtLoopState) (j : Nat) (h : st.timers[j]? = none) :
    fireTimer st j = st := by
  simp [fireTimer, h]

theorem fireTimer_skip (st : QtLoopState) (j : Nat) (t : QtTimer)
    (h : st.timers[j]? = some t) (hrun : (t.stopped || t.fired) = true) :
    fireTimer st j = st := by
  simp [fireTimer, h, hrun]

theorem fireTimer_run (st : QtLoopState) (j : Nat) (t : QtTimer)
    (h : st.timers[j]? = some t) (hrun : (t.stopped || t.fired) = false) :
    fireTimer st j =
      { timers := st.timers.set j { t with fired := true },
        jobs := st.jobs, ran := st.ran ++ [j] } := by
  simp [fireTimer, h, hrun]

theorem schedule_nojob (st : QtLoopState) (ch : String) (h : mget st.jobs ch = none) :
    schedule st ch =
      { timers := st.timers ++ [{ stopped := false, fired := false }],
        jobs := mset st.jobs ch st.timers.length, ran := st.ran } := by
  simp [schedule, h]

theorem schedule_job (st : QtLoopState) (ch : String) (id : Nat)
    (h : mget st.jobs ch = some id) :
    schedule st ch =
      { timers := stopTimer st.timers id ++ [{ stopped := false, fired := false }],
        jobs := mset st.jobs ch (stopTimer st.timers id).length, ran := st.ran } := by
  simp [schedule, h]

theorem stopTimer_length (ts : List QtTimer) (id : Nat) :
    (stopTimer ts id).length = ts.length := by
  cases h : ts[id]? with
  | none => rw [stopTimer_none ts id h]
  | some t => rw [stopTimer_some ts id t h, List.length_set]

theorem schedule_timers_length (st : QtLoopState) (ch : String) :
    (schedule st ch).timers.length = st.timers.length + 1 := by
  cases h : mget st.jobs ch with
  | none => rw [schedule_nojob st ch h]; simp
  | some id => rw [schedule_job st ch id h]; simp [stopTimer_length]

theorem scheduleBurst_timers_length (st : QtLoopState) (ch : String) (n : Nat) :
    (scheduleBurst st ch n).timers.length = st.timers.length + n := by
  induction n with
  | zero => rfl
  | succ n ih =>
    rw [scheduleBurst, schedule_timers_length, ih]
    omega

theorem schedule_ran (st : QtLoopState) (ch : String) :
    (schedule st ch).ran = st.ran := by
  cases h : mget st.jobs ch with
  | none => rw [schedule_nojob st ch h]
  | some id => rw [schedule_job st ch id h]

theorem scheduleBurst_ran (st : QtLoopState) (ch : String) (n : Nat) :
    (scheduleBurst st ch n).ran = st.ran := by
  induction n with
  | zero => rfl
  | succ n ih => rw [scheduleBurst, schedule_ran, ih]

theorem schedule_jobs (st : QtLoopState) (ch : String) :
    (schedule st ch).jobs = mset st.jobs ch st.timers.length := by
  cases h : mget st.jobs ch with
  | none => rw [schedule_nojob st ch h]
  | some id => rw [schedule_job st ch id h]; simp [stopTimer_length]

theorem scheduleBurst_job (st : QtLoopState) (ch : String) (n : Nat) :
    mget (scheduleBurst st ch (n + 1)).jobs ch = some (st.timers.length + n) := by
  rw [scheduleBurst, schedule_jobs, scheduleBurst_timers_length, mget_mset_self]

theorem stopTimer_preserves_stoppedAt (ts : List QtTimer) (j id : Nat)
    (h : stoppedAt ts id) : stoppedAt (stopTimer ts j) id := by
  obtain ⟨t, hget, hstop⟩ := h
  cases hj : ts[j]? with
  | none => rw [stopTimer_none ts j hj]; exact ⟨t, hget, hstop⟩
  | some tj =>
    rw [stopTimer_some ts j tj hj]
    by_cases hij : j = id
    · subst hij
      have hlt : j < ts.length := by
        by_contra hge
        rw [not_lt] at hge
        rw [List.getElem?_eq_none_iff.mpr hge] at hj
        cases hj
      refine ⟨{ tj with stopped := true }, ?_, rfl⟩
      rw [List.getElem?_set_self hlt]
    · exact ⟨t, by rw [List.getElem?_set_ne hij]; exact hget, hstop⟩

theorem stopTimer_stops_job (ts : List QtTimer) (id : Nat)
    (h : id < ts.length) : stoppedAt (stopTimer ts id) id := by
  obtain ⟨t, hget⟩ : ∃ t, ts[id]? = some t := by
    cases hg : ts[id]? with
    | none => rw [List.getElem?_eq_none_iff] at hg; omega
    | some t => exact ⟨t, rfl⟩
  rw [stopTimer_some ts id t hget]
  refine ⟨{ t with stopped := true }, ?_, rfl⟩
  rw [List.getElem?_set_self h]

theorem append_preserves_stoppedAt (ts : List QtTimer) (x : QtTimer) (id : Nat)
    (h : stoppedAt ts id) : stoppedAt (ts ++ [x]) id := by
  obtain ⟨t, hget, hstop⟩ := h
  have hlt : id < ts.length := by
    by_contra hge
    rw [not_lt] at hge
    rw [List.getElem?_eq_none_iff.mpr hge] at hget
    cases hget
  exact ⟨t, by rw [List.getElem?_append_left hlt]; exact hget, hstop⟩

theorem schedule_preserves_stoppedAt (st : QtLoopState) (ch : String) (id : Nat)
    (h : stoppedAt st.timers id) : stoppedAt (schedule st ch).timers id := by
  cases hj : mget st.jobs ch with
  | none =>
    rw [schedule_nojob st ch hj]
    exact append_preserves_stoppedAt _ _ _ h
  | some j =>
    rw [schedule_job st ch j hj]
    exact append_preserves_stoppedAt _ _ _ (stopTimer_preserves_stoppedAt _ _ _ h)

theorem scheduleBurst_stops_previous (st : QtLoopState) (ch : String) (n id : Nat)
    (hlo : st.timers.length ≤ id) (hhi : id + 1 < st.timers.length + n) :
    stoppedAt (scheduleBurst st ch n).timers id := by
  induction n with
  | zero => omega
  | succ n ih =>
    rw [scheduleBurst]
    by_cases hcase : id + 1 < st.timers.length + n
    · exact schedule_preserves_stoppedAt _ _ _ (ih hcase)
    · obtain ⟨m, hm⟩ : ∃ m, n = m + 1 := ⟨n - 1, by omega⟩
      subst hm
      have hid : id = st.timers.length + m := by omega
      have hjob := scheduleBurst_job st ch m
      rw [schedule_job _ ch _ hjob]
      refine append_preserves_stoppedAt _ _ _ ?_
      rw [hid]
      refine stopTimer_stops_job _ _ ?_
      rw [scheduleBurst_timers_length]
      omega

theorem fireTimer_preserves_stoppedAt (st : QtLoopState) (j id : Nat)
    (h : stoppedAt st.timers id) : stoppedAt (fireTimer st j).timers id := by
  obtain ⟨t, hget, hstop⟩ := h
  cases hj : st.timers[j]? with
  | none => rw [fireTimer_missing st j hj]; exact ⟨t, hget, hstop⟩
  | some tj =>
    by_cases hrun : (tj.stopped || tj.fired) = true
    · rw [fireTimer_skip st j tj hj hrun]
      exact ⟨t, hget, hstop⟩
    · have hsf : tj.stopped = false ∧ tj.fired = false := by
        simpa [Bool.or_eq_true, not_or] using hrun
      rw [fireTimer_run st j tj hj (by simp [hsf.1, hsf.2])]
      by_cases hij : j = id
      · subst hij
        rw [hj] at hget
        injection hget with hget
        subst hget
        rw [hsf.1] at hstop
        cases hstop
      · exact ⟨t, by rw [List.getElem?_set_ne hij]; exact hget, hstop⟩

theorem fireTimer_stopped_ran (st : QtLoopState) (j id : Nat)
    (h : stoppedAt st.timers id) (hmem : id ∈ (fireTimer st j).ran) :
    id ∈ st.ran := by
  obtain ⟨t, hget, hstop⟩ := h
  cases hj : st.timers[j]? with
  | none => rw [fireTimer_missing st j hj] at hmem; exact hmem
  | some tj =>
    by_cases hrun : (tj.stopped || tj.fired) = true
    · rw [fireTimer_skip st j tj hj hrun] at hmem; exact hmem
    · have hsf : tj.stopped = false ∧ tj.fired = false := by
        simpa [Bool.or_eq_true, not_or] using hrun
      rw [fireTimer_run st j tj hj (by simp [hsf.1, hsf.2])] at hmem
      simp only [List.mem_append, List.mem_singleton] at hmem
      rcases hmem with hmem | hmem
      · exact hmem
      · subst hmem
        rw [hj] at hget
        injection hget with hget
        subst hget
        rw [hsf.1] at hstop
        cases hstop

theorem fireSeq_stopped_ran (ids : List Nat) (st : QtLoopState) (id : Nat)
    (h : stoppedAt st.timers id) (hmem : id ∈ (fireSeq st ids).ran) :
    id ∈ st.ran := by
  induction ids generalizing st with
  | nil => exact hmem
  | cons j ids ih =>
    have h' := fireTimer_preserves_stoppedAt st j id h
    exact fireTimer_stopped_ran st j id h (ih (fireTimer st j) h' hmem)

theorem fireTimer_missing_ran (st : QtLoopState) (j id : Nat)
    (h : st.timers[id]? = none) :
    (fireTimer st j).timers[id]? = none ∧
    ((id ∈ (fireTimer st j).ran) → id ∈ st.ran) := by
  cases hj : st.timers[j]? with
  | none => rw [fireTimer_missing st j hj]; exact ⟨h, fun hm => hm⟩
  | some tj =>
    by_cases hrun : (tj.stopped || tj.fired) = true
    · rw [fireTimer_skip st j tj hj hrun]
      exact ⟨h, fun hm => hm⟩
    · rw [fireTimer_run st j tj hj (by simpa using hrun)]
      constructor
      · rw [List.getElem?_eq_none_iff] at h ⊢
        rw [List.length_set]
        exact h
      · intro hm
        simp only [List.mem_append, List.mem_singleton] at hm
        rcases hm with hm | hm
        · exact hm
        · subst hm
          rw [h] at hj
          cases hj

theorem fireSeq_missing_ran (ids : List Nat) (st : QtLoopState) (id : Nat)
    (h : st.timers[id]? = none) (hmem : id ∈ (fireSeq st ids).ran) :
    id ∈ st.ran := by
  induction ids generalizing st with
  | nil => exact hmem
  | cons j ids ih =>
    obtain ⟨h1, h2⟩ := fireTimer_missing_ran st j id h
    exact h2 (ih (fireTimer st j) h1 hmem)

theorem fireSeq_count_le_one (ids : List Nat) (st : QtLoopState) (id : Nat)
    (h1 : st.ran.count id ≤ 1)
    (h2 : id ∈ st.ran → ∃ t, st.timers[id]? = some t ∧ t.fired = true) :
    (fireSeq st ids).ran.count id ≤ 1 := by
  induction ids generalizing st with
  | nil => exact h1
  | cons j ids ih =>
    refine ih (fireTimer st j) ?_ ?_
    · cases hj : st.timers[j]? with
      | none => rw [fireTimer_missing st j hj]; exact h1
      | some tj =>
        by_cases hrun : (tj.stopped || tj.fired) = true
        · rw [fireTimer_skip st j tj hj hrun]; exact h1
        · have hsf : tj.stopped = false ∧ tj.fired = false := by
            simpa [Bool.or_eq_true, not_or] using hrun
          rw [fireTimer_run st j tj hj (by simp [hsf.1, hsf.2])]
          by_cases hij : j = id
          · subst hij
            have hnotmem : j ∉ st.ran := by
              intro hm
              obtain ⟨t, hget, hfired⟩ := h2 hm
              rw [hget] at hj
              injection hj with hj
              subst hj
              rw [hsf.2] at hfired
              cases hfired
            simp [List.count_append, List.count_eq_zero.2 hnotmem]
          · have hz : List.count id [j] = 0 := by
              refine List.count_eq_zero.2 ?_
              simp
              exact fun hc => hij hc.symm
            simp only [List.count_append, hz]
            omega
    · intro hm
      cases hj : st.timers[j]? with
      | none =>
        rw [fireTimer_missing st j hj] at hm ⊢
        exact h2 hm
      | some tj =>
        by_cases hrun : (tj.stopped || tj.fired) = true
        · rw [fireTimer_skip st j tj hj hrun] at hm ⊢
          exact h2 hm
        · have hsf : tj.stopped = false ∧ tj.fired = false := by
            simpa [Bool.or_eq_true, not_or] using hrun
          rw [fireTimer_run st j tj hj (by simp [hsf.1, hsf.2])] at hm ⊢
          simp only [List.mem_append, List.mem_singleton] at hm
          by_cases hij : j = id
          · subst hij
            have hlt : j < st.timers.length := by
              by_contra hge
              rw [not_lt] at hge
              rw [List.getElem?_eq_none_iff.mpr hge] at hj
              cases hj
            refine ⟨{ tj with fired := true }, ?_, rfl⟩
            rw [List.getElem?_set_self hlt]
          · rcases hm with hm | hm
            · obtain ⟨t, hget, hfired⟩ := h2 hm
              exact ⟨t, by rw [List.getElem?_set_ne hij]; exact hget, hfired⟩
            · exact absurd hm.symm hij

/-- C4: a burst of schedule calls on one channel with no timeout delivery in
between stops every previously started timer of the channel, so over any
subsequent behaviour of the event loop only the callback of the last call
in the burst can run, and it runs at most once. -/
theorem C4_schedule_debounces :
    ∀ (st0 : QtLoopState) (ch : String) (n : Nat) (ids : List Nat),
      1 ≤ n →
      (∀ i ∈ st0.ran, i < st0.timers.length) →
      (∀ id, st0.timers.length ≤ id →
        id ∈ (fireSeq (scheduleBurst st0 ch n) ids).ran →
        id = st0.timers.length + n - 1) ∧
      (fireSeq (scheduleBurst st0 ch n) ids).ran.count
          (st0.timers.length + n - 1) ≤ 1 := by
  intro st0 ch n ids hn hran
  constructor
  · intro id hlo hmem
    by_cases hhi : id + 1 < st0.timers.length + n
    · exfalso
      have hstop := scheduleBurst_stops_previous st0 ch n id hlo hhi
      have hm := fireSeq_stopped_ran ids _ id hstop hmem
      rw [scheduleBurst_ran] at hm
      have := hran id hm
      omega
    · by_cases hout : id < st0.timers.length + n
      · omega
      · exfalso
        have hnone : (scheduleBurst st0 ch n).timers[id]? = none := by
          rw [List.getElem?_eq_none_iff, scheduleBurst_timers_length]
          omega
        have hm := fireSeq_missing_ran ids _ id hnone hmem
        rw [scheduleBurst_ran] at hm
        have := hran id hm
        omega
  · refine fireSeq_count_le_one ids _ _ ?_ ?_
    · rw [scheduleBurst_ran]
      have hnm : st0.timers.length + n - 1 ∉ st0.ran := by
        intro hm
        have := hran _ hm
        omega
      simp [List.count_eq_zero.2 hnm]
    · rw [scheduleBurst_ran]
      intro hm
      exfalso
      have := hran _ hm
      omega

/-- C4 witness: a concrete burst of three schedule calls on one channel from
the empty state followed by the event loop attempting to fire every timer:
only the last callback runs, exactly once. -/
theorem C4_witness :
    (1 ≤ 3 ∧ ∀ i ∈ (QtLoopState.mk [] [] []).ran, i < 0) ∧
    (0 ∈ (fireSeq (scheduleBurst (QtLoopState.mk [] [] []) "default" 3)
        [0, 1, 2, 2, 1, 0]).ran → 0 = 2) ∧
    (fireSeq (scheduleBurst (QtLoopState.mk [] [] []) "default" 3)
        [0, 1, 2, 2, 1, 0]).ran.count 2 ≤ 1 := by
  have h := C4_schedule_debounces (QtLoopState.mk [] [] []) "default" 3
    [0, 1, 2, 2, 1, 0] (by decide) (by intro i hm; cases hm)
  exact ⟨⟨by decide, by intro i hm; cases hm⟩, h.1 0 (by decide), h.2⟩

/-! ### C2: rename_prim moves specs and repaths targets -/

theorem pathStarts_append_self (p r : PrimPath) : pathStarts p (p ++ r) = true := by
  rw [pathStarts, List.isPrefixOf_iff_prefix]
  exact List.prefix_append p r

theorem remapPath_append (src dest r : PrimPath) :
    remapPath src dest (src ++ r) = dest ++ r := by
  rw [remapPath, if_pos (pathStarts_append_self src r), List.drop_left]

theorem pathStarts_exists (pre p : PrimPath) (h : pathStarts pre p = true) :
    ∃ r, p = pre ++ r := by
  rw [pathStarts, List.isPrefixOf_iff_prefix] at h
  obtain ⟨r, hr⟩ := h
  exact ⟨r, hr.symm⟩

theorem getD_map {α β : Type} (l : List α) (f : α → β) (i : Nat) (dα : α) (dβ : β)
    (h : i < l.length) : (l.map f).getD i dβ = f (l.getD i dα) := by
  rw [List.getD_eq_getElem?_getD, List.getD_eq_getElem?_getD, List.getElem?_map]
  cases hg : l[i]? with
  | none =>
    rw [List.getElem?_eq_none_iff] at hg
    omega
  | some a => simp

/-- C2 counterexample: the claim states rename_prim moves the prim spec in
every layer that has a spec at the prim path and returns True for every
valid prim and non-empty name. With a layer that already carries a spec at
the destination sibling path, the namespace edit fails, move_prim_spec
returns False, rename_prim ignores it: the layer is left unchanged (the
spec at /Old is not moved), yet rename_prim still returns True. -/
theorem C2_counterexample :
    pathName ["Old"] ≠ "New" ∧
    (["Old"] : PrimPath) ∈ layerOldNew.primSpecs ∧
    rename_prim stageOldNew ["Old"] "New" = ([layerOldNew], true) := by
  refine ⟨by decide, by decide, by decide⟩

/-- C2 amended: for a renamed prim (name actually changing), rename_prim
returns True and edits exactly the layers with a spec at the (edit-target
remapped) source path. In an edited layer where the namespace edit is valid
(in particular no spec already sits at the destination path), the prim-spec
list becomes exactly the old list with the source subtree remapped onto the
destination sibling path - the spec moves: the source path no longer
carries a spec, the subtree reappears under the destination, and specs
outside the source subtree survive - and every relationship target and
attribute connection is rewritten through remapPath, which sends the old
path and its descendants to the new path. A layer where the edit fails or
is degenerate (source equals destination) is left completely unchanged,
although rename_prim still returns True. -/
theorem C2_rename_moves_and_repaths :
    ∀ (stage : UsdStage) (prim_path : PrimPath) (new_name : String),
      pathName prim_path ≠ new_name →
      (rename_prim stage prim_path new_name).2 = true ∧
      (rename_prim stage prim_path new_name).1.length = stage.layerStack.length ∧
      (∀ i, i < stage.layerStack.length →
        (((rename_paths stage prim_path new_name).1 ∉
            (stage.layerStack.getD i emptyLayer).primSpecs →
          (rename_prim stage prim_path new_name).1.getD i emptyLayer =
            stage.layerStack.getD i emptyLayer) ∧
         ((rename_paths stage prim_path new_name).1 ∈
            (stage.layerStack.getD i emptyLayer).primSpecs →
          (namespaceEditOk (stage.layerStack.getD i emptyLayer)
              (rename_paths stage prim_path new_name).1
              (rename_paths stage prim_path new_name).2 = false ∨
            (rename_paths stage prim_path new_name).1 =
              (rename_paths stage prim_path new_name).2) →
          (rename_prim stage prim_path new_name).1.getD i emptyLayer =
            stage.layerStack.getD i emptyLayer) ∧
         ((rename_paths stage prim_path new_name).1 ∈
            (stage.layerStack.getD i emptyLayer).primSpecs →
          namespaceEditOk (stage.layerStack.getD i emptyLayer)
            (rename_paths stage prim_path new_name).1
            (rename_paths stage prim_path new_name).2 = true →
          (∀ p ∈ (stage.layerStack.getD i emptyLayer).primSpecs,
            pathStarts (rename_paths stage prim_path new_name).2 p = false) →
          (rename_paths stage prim_path new_name).1 ≠
            (rename_paths stage prim_path new_name).2 →
          ((((rename_prim stage prim_path new_name).1.getD i emptyLayer).primSpecs =
              (stage.layerStack.getD i emptyLayer).primSpecs.map
                (remapPath (rename_paths stage prim_path new_name).1
                  (rename_paths stage prim_path new_name).2) ∧
           (rename_paths stage prim_path new_name).1 ∉
             ((rename_prim stage prim_path new_name).1.getD i emptyLayer).primSpecs ∧
           (∀ r, (rename_paths stage prim_path new_name).1 ++ r ∈
              (stage.layerStack.getD i emptyLayer).primSpecs ↔
            (rename_paths stage prim_path new_name).2 ++ r ∈
              ((rename_prim stage prim_path new_name).1.getD i emptyLayer).primSpecs) ∧
           (∀ p ∈ (stage.layerStack.getD i emptyLayer).primSpecs,
            pathStarts (rename_paths stage prim_path new_name).1 p = false →
            p ∈ ((rename_prim stage prim_path new_name).1.getD i emptyLayer).primSpecs) ∧
           ((rename_prim stage prim_path new_name).1.getD i emptyLayer).props =
             (stage.layerStack.getD i emptyLayer).props.map (fun pr =>
               ((remapPath (rename_paths stage prim_path new_name).1
                   (rename_paths stage prim_path new_name).2 pr.1.1, pr.1.2),
                pr.2.map (remapPath (rename_paths stage prim_path new_name).1
                   (rename_paths stage prim_path new_name).2)))))))) := by
  intro stage prim_path new_name hname
  have hlayers : (rename_prim stage prim_path new_name).1 =
      stage.layerStack.map (fun layer =>
        if decide ((rename_paths stage prim_path new_name).1 ∈ layer.primSpecs) then
          (move_prim_spec layer (rename_paths stage prim_path new_name).1
            (rename_paths stage prim_path new_name).2).1
        else layer) := by
    rw [rename_prim, if_neg hname]
  have hret : (rename_prim stage prim_path new_name).2 = true := by
    rw [rename_prim, if_neg hname]
  refine ⟨hret, by rw [hlayers, List.length_map], ?_⟩
  intro i hi
  have hgd : (rename_prim stage prim_path new_name).1.getD i emptyLayer =
      (fun layer =>
        if decide ((rename_paths stage prim_path new_name).1 ∈ layer.primSpecs) then
          (move_prim_spec layer (rename_paths stage prim_path new_name).1
            (rename_paths stage prim_path new_name).2).1
        else layer) (stage.layerStack.getD i emptyLayer) := by
    rw [hlayers]
    exact getD_map stage.layerStack _ i emptyLayer emptyLayer hi
  set src := (rename_paths stage prim_path new_name).1 with hsrc
  set dst := (rename_paths stage prim_path new_name).2 with hdst
  set layer := stage.layerStack.getD i emptyLayer with hlayer
  refine ⟨?_, ?_, ?_⟩
  · intro hnot
    rw [hgd]
    simp only [decide_eq_true_eq]
    rw [if_neg hnot]
  · intro hmem hfail
    rw [hgd]
    simp only [decide_eq_true_eq]
    rw [if_pos hmem, move_prim_spec]
    by_cases hsd : src = dst
    · rw [if_pos hsd]
    · rw [if_neg hsd]
      rcases hfail with hok | hok
      · rw [if_neg (by simp [hok])]
      · exact absurd hok hsd
  · intro hmem hok hdstfree hne
    have hmove : (rename_prim stage prim_path new_name).1.getD i emptyLayer =
        repath_properties (applyNamespaceEdit layer src dst) src dst := by
      rw [hgd]
      simp only [decide_eq_true_eq]
      rw [if_pos hmem, move_prim_spec, if_neg hne, if_pos hok]
    have hspecs : ((rename_prim stage prim_path new_name).1.getD i emptyLayer).primSpecs =
        layer.primSpecs.map (remapPath src dst) := by
      rw [hmove, repath_properties, applyNamespaceEdit]
    refine ⟨hspecs, ?_, ?_, ?_, ?_⟩
    · rw [hspecs]
      intro hin
      rw [List.mem_map] at hin
      obtain ⟨p, hp, hps⟩ := hin
      by_cases hst : pathStarts src p = true
      · obtain ⟨r2, hr2⟩ := pathStarts_exists src p hst
        subst hr2
        rw [remapPath_append] at hps
        have hfree := hdstfree src hmem
        rw [← hps, pathStarts_append_self] at hfree
        cases hfree
      · rw [remapPath, if_neg hst] at hps
        apply hst
        rw [hps]
        have := pathStarts_append_self src []
        rwa [List.append_nil] at this
    · intro r
      rw [hspecs]
      constructor
      · intro hin
        have := List.mem_map_of_mem (remapPath src dst) hin
        rwa [remapPath_append] at this
      · intro hin
        rw [List.mem_map] at hin
        obtain ⟨p, hp, hps⟩ := hin
        by_cases hst : pathStarts src p = true
        · obtain ⟨r2, hr2⟩ := pathStarts_exists src p hst
          subst hr2
          rw [remapPath_append] at hps
          have := List.append_cancel_left hps
          rw [this] at hp
          exact hp
        · rw [remapPath, if_neg hst] at hps
          exfalso
          have hfree := hdstfree p hp
          rw [hps, pathStarts_append_self] at hfree
          cases hfree
    · intro p hp hnost
      rw [hspecs, List.mem_map]
      exact ⟨p, hp, by rw [remapPath, if_neg (by simp [hnost])]⟩
    · rw [hmove, repath_properties, applyNamespaceEdit]
      simp only [List.map_map]
      rfl

/-- C2 witness: renaming /Old to /New on the concrete stage moves the spec
subtree (the destination paths appear, the source paths are gone), keeps
the unrelated spec, and repaths the relationship target. -/
theorem C2_witness :
    (["New"] : PrimPath) ∈
      ((rename_prim stageRename ["Old"] "New").1.getD 0 emptyLayer).primSpecs ∧
    (["New", "Sub"] : PrimPath) ∈
      ((rename_prim stageRename ["Old"] "New").1.getD 0 emptyLayer).primSpecs ∧
    (["Old"] : PrimPath) ∉
      ((rename_prim stageRename ["Old"] "New").1.getD 0 emptyLayer).primSpecs ∧
    (["Old", "Sub"] : PrimPath) ∉
      ((rename_prim stageRename ["Old"] "New").1.getD 0 emptyLayer).primSpecs ∧
    (["Other"] : PrimPath) ∈
      ((rename_prim stageRename ["Old"] "New").1.getD 0 emptyLayer).primSpecs ∧
    ((rename_prim stageRename ["Old"] "New").1.getD 0 emptyLayer).props =
      [((["Other"], "rel"), [["New", "Sub"], ["Elsewhere"]])] := by
  have h := (C2_rename_moves_and_repaths stageRename ["Old"] "New" (by decide)).2.2
    0 (by decide)
  have h2 := h.2.2 (by decide) (by decide) (by decide) (by decide)
  have hspecs := h2.1
  have hnosrc := h2.2.1
  have hnew := (h2.2.2.1 []).1 (by decide)
  have hsub := (h2.2.2.1 ["Sub"]).1 (by decide)
  have hother := h2.2.2.2.1 ["Other"] (by decide) (by decide)
  have hprops := h2.2.2.2.2
  refine ⟨by simpa using hnew, by simpa using hsub, by simpa using hnosrc, ?_,
    by simpa using hother, ?_⟩
  · rw [hspecs]
    decide
  · rw [hprops]
    decide

/-! ### C7: add_items validates before mutating -/

theorem newFilter_nil (t : ItemTree) : newFilter t [] = [] := rfl

theorem newFilter_cons (t : ItemTree) (item : TreeItem) (rest : List TreeItem) :
    newFilter t (item :: rest) =
      if mhas t.child_to_parent item then newFilter t rest
      else item :: newFilter t rest := by
  by_cases h : mhas t.child_to_parent item <;> simp [newFilter, List.filter, h]

theorem collect_ok (t : ItemTree) :
    ∀ (items : List TreeItem) (newKeys : List Nat) (acc : List TreeItem),
      (∀ i ∈ newFilter t items, mhas t.key_to_item i.key = false) →
      List.Nodup (newKeys ++ (newFilter t items).map TreeItem.key) →
      collectNewItems t items newKeys acc =
        Except.ok (acc.reverse ++ newFilter t items) := by
  intro items
  induction items with
  | nil =>
    intro newKeys acc hkeys hnd
    simp [collectNewItems, newFilter_nil]
  | cons item rest ih =>
    intro newKeys acc hkeys hnd
    rw [newFilter_cons] at hkeys hnd ⊢
    by_cases hc : mhas t.child_to_parent item = true
    · rw [if_pos hc] at hkeys hnd ⊢
      rw [collectNewItems, if_pos hc]
      exact ih newKeys acc hkeys hnd
    · have hc' : mhas t.child_to_parent item = false := by
        cases h : mhas t.child_to_parent item
        · rfl
        · exact absurd h hc
      rw [if_neg hc] at hkeys hnd ⊢
      have hknew : mhas t.key_to_item item.key = false :=
        hkeys item (List.mem_cons_self item _)
      have hnotin : item.key ∉ newKeys := by
        rw [List.map_cons] at hnd
        rw [List.nodup_append] at hnd
        intro hmem
        exact hnd.2.2 hmem (List.mem_cons_self _ _)
      rw [collectNewItems, if_neg (by simp [hc']), if_neg (by simp [hknew]),
        if_neg hnotin]
      have hnd' : List.Nodup ((item.key :: newKeys) ++
          (newFilter t rest).map TreeItem.key) := by
        rw [List.map_cons] at hnd
        have hperm := @List.perm_middle _ item.key newKeys
          ((newFilter t rest).map TreeItem.key)
        rw [List.cons_append]
        exact (hperm.nodup_iff).1 hnd
      have hkeys' : ∀ i ∈ newFilter t rest, mhas t.key_to_item i.key = false :=
        fun i hi => hkeys i (List.mem_cons_of_mem _ hi)
      rw [ih (item.key :: newKeys) (item :: acc) hkeys' hnd']
      simp

theorem collect_err (t : ItemTree) :
    ∀ (items : List TreeItem) (newKeys : List Nat) (acc : List TreeItem),
      ((∃ i ∈ newFilter t items,
          mhas t.key_to_item i.key = true ∨ i.key ∈ newKeys) ∨
        ¬ List.Nodup ((newFilter t items).map TreeItem.key)) →
      collectNewItems t items newKeys acc = Except.error TreeExc.valueError := by
  intro items
  induction items with
  | nil =>
    intro newKeys acc hbad
    rw [newFilter_nil] at hbad
    rcases hbad with ⟨i, hi, _⟩ | hnd
    · cases hi
    · simp at hnd
  | cons item rest ih =>
    intro newKeys acc hbad
    rw [newFilter_cons] at hbad
    by_cases hc : mhas t.child_to_parent item = true
    · rw [if_pos hc] at hbad
      rw [collectNewItems, if_pos hc]
      exact ih newKeys acc hbad
    · have hc' : mhas t.child_to_parent item = false := by
        cases h : mhas t.child_to_parent item
        · rfl
        · exact absurd h hc
      rw [if_neg hc] at hbad
      rw [collectNewItems, if_neg (by simp [hc'])]
      by_cases hk : mhas t.key_to_item item.key = true
      · rw [if_pos hk]
      · have hk' : mhas t.key_to_item item.key = false := by
          cases h : mhas t.key_to_item item.key
          · rfl
          · exact absurd h hk
        rw [if_neg (by simp [hk'])]
        by_cases hm : item.key ∈ newKeys
        · rw [if_pos hm]
        · rw [if_neg hm]
          refine ih (item.key :: newKeys) (item :: acc) ?_
          rcases hbad with ⟨i, hi, hPi⟩ | hnd
          · rcases List.mem_cons.1 hi with hieq | himem
            · subst hieq
              rcases hPi with hPi | hPi
              · exact absurd hPi (by simp [hk'])
              · exact absurd hPi hm
            · refine Or.inl ⟨i, himem, ?_⟩
              rcases hPi with hPi | hPi
              · exact Or.inl hPi
              · exact Or.inr (List.mem_cons_of_mem _ hPi)
          · rw [List.map_cons, List.nodup_cons] at hnd
            push_neg at hnd
            by_cases hnd2 : List.Nodup ((newFilter t rest).map TreeItem.key)
            · have hdup : item.key ∈ (newFilter t rest).map TreeItem.key := by
                by_contra hni
                exact (hnd hni) hnd2
              rw [List.mem_map] at hdup
              obtain ⟨i, hi, hik⟩ := hdup
              exact Or.inl ⟨i, hi, Or.inr (by rw [hik]; exact List.mem_cons_self _ _)⟩
            · exact Or.inr hnd2

theorem foldReg_key_not_mem (parent : TreeItem) (k : Nat) :
    ∀ (l : List TreeItem) (t : ItemTree), (∀ j ∈ l, j.key ≠ k) →
      mget (l.foldl (registerNewItem parent) t).key_to_item k =
        mget t.key_to_item k := by
  intro l
  induction l with
  | nil => intro t h; rfl
  | cons j rest ih =>
    intro t h
    rw [List.foldl_cons, ih _ (fun x hx => h x (List.mem_cons_of_mem _ hx))]
    rw [registerNewItem]
    exact mget_mset_ne _ _ _ _ (h j (List.mem_cons_self _ _))

theorem foldReg_ctp_not_mem (parent : TreeItem) (x : TreeItem) :
    ∀ (l : List TreeItem) (t : ItemTree), (∀ j ∈ l, j ≠ x) →
      mget (l.foldl (registerNewItem parent) t).child_to_parent x =
        mget t.child_to_parent x := by
  intro l
  induction l with
  | nil => intro t h; rfl
  | cons j rest ih =>
    intro t h
    rw [List.foldl_cons, ih _ (fun y hy => h y (List.mem_cons_of_mem _ hy))]
    rw [registerNewItem]
    exact mget_mset_ne _ _ _ _ (h j (List.mem_cons_self _ _))

theorem foldReg_ptc_not_mem (parent : TreeItem) (x : TreeItem) :
    ∀ (l : List TreeItem) (t : ItemTree), (∀ j ∈ l, j ≠ x) →
      mget (l.foldl (registerNewItem parent) t).parent_to_children x =
        mget t.parent_to_children x := by
  intro l
  induction l with
  | nil => intro t h; rfl
  | cons j rest ih =>
    intro t h
    rw [List.foldl_cons, ih _ (fun y hy => h y (List.mem_cons_of_mem _ hy))]
    rw [registerNewItem]
    exact mget_mset_ne _ _ _ _ (h j (List.mem_cons_self _ _))

theorem foldReg_key_mem (parent : TreeItem) :
    ∀ (l : List TreeItem) (t : ItemTree) (i : TreeItem), i ∈ l →
      List.Nodup (l.map TreeItem.key) →
      mget (l.foldl (registerNewItem parent) t).key_to_item i.key = some i := by
  intro l
  induction l with
  | nil => intro t i hi; cases hi
  | cons j rest ih =>
    intro t i hi hnd
    rw [List.map_cons, List.nodup_cons] at hnd
    rw [List.foldl_cons]
    rcases List.mem_cons.1 hi with hieq | himem
    · subst hieq
      have hrest : ∀ x ∈ rest, x.key ≠ i.key := by
        intro x hx hxk
        exact hnd.1 (List.mem_map.2 ⟨x, hx, hxk⟩)
      rw [foldReg_key_not_mem parent i.key rest _ hrest, registerNewItem,
        mget_mset_self]
    · exact ih _ i himem hnd.2

theorem foldReg_ctp_mem (parent : TreeItem) :
    ∀ (l : List TreeItem) (t : ItemTree) (i : TreeItem), i ∈ l →
      List.Nodup l →
      mget (l.foldl (registerNewItem parent) t).child_to_parent i = some parent := by
  intro l
  induction l with
  | nil => intro t i hi; cases hi
  | cons j rest ih =>
    intro t i hi hnd
    rw [List.nodup_cons] at hnd
    rw [List.foldl_cons]
    rcases List.mem_cons.1 hi with hieq | himem
    · subst hieq
      have hrest : ∀ x ∈ rest, x ≠ i := fun x hx hxi => hnd.1 (hxi ▸ hx)
      rw [foldReg_ctp_not_mem parent i rest _ hrest, registerNewItem,
        mget_mset_self]
    · exact ih _ i himem hnd.2

/-- C7: for any ItemTree and batch of items, when some not-yet-present item
key shadows an existing key or duplicates another new item key in the same
batch, add_items raises ValueError with the tree completely unchanged;
otherwise each new item is appended to the given parent child list in input
order, becomes retrievable by its key, and the parent map records the given
parent for it. -/
theorem C7_add_items :
    ∀ (t : ItemTree) (items : List TreeItem) (parent? : Option TreeItem),
      mget t.key_to_item t.root.key = some t.root →
      (∀ x, mhas t.parent_to_children x = true → x ≠ t.root →
        mhas t.child_to_parent x = true) →
      items ≠ [] →
      (∀ p, parent? = some p → mhas t.parent_to_children p = true) →
      ((((∃ i ∈ newFilter t items, mhas t.key_to_item i.key = true) ∨
         ¬ List.Nodup ((newFilter t items).map TreeItem.key)) →
        add_items t items parent? = (t, Except.error TreeExc.valueError)) ∧
       ((∀ i ∈ newFilter t items, mhas t.key_to_item i.key = false) →
        List.Nodup ((newFilter t items).map TreeItem.key) →
        ((add_items t items parent?).2 = Except.ok (newFilter t items) ∧
         mget (add_items t items parent?).1.parent_to_children (parent?.getD t.root) =
           some ((mget t.parent_to_children (parent?.getD t.root)).getD [] ++
             newFilter t items) ∧
         (∀ i ∈ newFilter t items,
           mget (add_items t items parent?).1.key_to_item i.key = some i ∧
           mget (add_items t items parent?).1.child_to_parent i =
             some (parent?.getD t.root))))) := by
  intro t items parent? hrootkey htree hne hpar
  have hstep : add_items t items parent? =
      addItemsChecked t items (parent?.getD t.root) := by
    rw [add_items.eq_def, if_neg hne]
    cases hp : parent? with
    | none => rfl
    | some p =>
      have hm := hpar p hp
      simp [hm]
  constructor
  · intro hbad
    rw [hstep, addItemsChecked]
    rw [collect_err t items [] [] ?_]
    rcases hbad with ⟨i, hi, hk⟩ | hnd
    · exact Or.inl ⟨i, hi, Or.inl hk⟩
    · exact Or.inr hnd
  · intro hkeys hnd
    have hcol := collect_ok t items [] [] hkeys (by simpa using hnd)
    have hparent_not : (parent?.getD t.root) ∉ newFilter t items := by
      intro hmem
      have hctp : mhas t.child_to_parent (parent?.getD t.root) = false := by
        have := List.of_mem_filter hmem
        simpa using this
      by_cases hr : parent?.getD t.root = t.root
      · have hk := hkeys _ hmem
        rw [hr] at hk
        have htrue : mhas t.key_to_item t.root.key = true :=
          (mhas_iff _ _).2 ⟨t.root, hrootkey⟩
        rw [htrue] at hk
        cases hk
      · have hptc : mhas t.parent_to_children (parent?.getD t.root) = true := by
          cases hp : parent? with
          | none => exact absurd (by rw [hp]; rfl) hr
          | some p =>
            have h := hpar p hp
            simpa using h
        have h2 := htree _ hptc hr
        rw [hctp] at h2
        cases h2
    have hndl : List.Nodup (newFilter t items) :=
      List.Nodup.of_map TreeItem.key hnd
    rw [hstep, addItemsChecked, hcol]
    simp only [List.reverse_nil, List.nil_append]
    refine ⟨by trivial, ?_, ?_⟩
    · have hp1 : mget ((newFilter t items).foldl (registerNewItem (parent?.getD t.root)) t).parent_to_children
          (parent?.getD t.root) = mget t.parent_to_children (parent?.getD t.root) := by
        refine foldReg_ptc_not_mem _ _ _ _ ?_
        intro j hj hjp
        exact hparent_not (hjp ▸ hj)
      rw [hp1]
      rw [mget_mset_self]
    · intro i hi
      constructor
      · exact foldReg_key_mem _ _ _ i hi hnd
      · exact foldReg_ctp_mem _ _ _ i hi hndl

/-- Membership in the parent map of a freshly constructed tree is only the
root. -/
theorem init_ptc_mem (r x : TreeItem)
    (hx : mhas (ItemTree.init r).parent_to_children x = true) : x = r := by
  obtain ⟨v, hv⟩ := (mhas_iff _ _).1 hx
  rw [ItemTree.init] at hv
  rw [mget_cons] at hv
  by_cases hrx : r = x
  · exact hrx.symm
  · rw [if_neg hrx] at hv
    cases hv

/-- C7 witness: adding two fresh items under the root appends them in order,
makes them key-retrievable with the root as parent; a batch with a
duplicated key raises ValueError and leaves the tree unchanged. -/
theorem C7_witness :
    (add_items tree0 [itemA, itemB] none).2 = Except.ok [itemA, itemB] ∧
    mget (add_items tree0 [itemA, itemB] none).1.parent_to_children rootItem =
      some [itemA, itemB] ∧
    mget (add_items tree0 [itemA, itemB] none).1.key_to_item 1 = some itemA ∧
    mget (add_items tree0 [itemA, itemB] none).1.child_to_parent itemB =
      some rootItem ∧
    add_items tree0 [itemA, TreeItem.mk 3 1] none =
      (tree0, Except.error TreeExc.valueError) := by
  have htree : ∀ x, mhas tree0.parent_to_children x = true → x ≠ tree0.root →
      mhas tree0.child_to_parent x = true := by
    intro x hx hxr
    exact absurd (init_ptc_mem rootItem x hx) hxr
  have h := C7_add_items tree0 [itemA, itemB] none (by decide) htree
    (by decide) (by intro p hp; cases hp)
  have hflt : newFilter tree0 [itemA, itemB] = [itemA, itemB] := by decide
  have hok := h.2 (by decide) (by decide)
  have h2 := C7_add_items tree0 [itemA, TreeItem.mk 3 1] none (by decide) htree
    (by decide) (by intro p hp; cases hp)
  have herr := h2.1 (Or.inr (by decide))
  refine ⟨?_, ?_, ?_, ?_, herr⟩
  · rw [hok.1, hflt]
  · have := hok.2.1
    rw [hflt] at this
    simpa using this
  · have := (hok.2.2 itemA (by rw [hflt]; exact List.mem_cons_self _ _)).1
    exact this
  · have := (hok.2.2 itemB (by rw [hflt]; simp)).2
    simpa using this

/-! ### C8 groundwork: map, well-formedness and ancestor-chain lemmas -/

section MoreMapLemmas

variable {κ ν : Type} [DecidableEq κ]

theorem mhas_of_mget (m : List (κ × ν)) (k : κ) (v : ν) (h : mget m k = some v) :
    mhas m k = true :=
  (mhas_iff m k).2 ⟨v, h⟩

theorem mget_mset (m : List (κ × ν)) (k k' : κ) (v : ν) :
    mget (mset m k v) k' = if k = k' then some v else mget m k' := by
  by_cases h : k = k'
  · rw [if_pos h, ← h, mget_mset_self]
  · rw [if_neg h, mget_mset_ne m k k' v h]

theorem mget_mdel (m : List (κ × ν)) (k k' : κ) :
    mget (mdel m k) k' = if k = k' then none else mget m k' := by
  by_cases h : k = k'
  · rw [if_pos h, ← h, mget_mdel_self]
  · rw [if_neg h, mget_mdel_ne m k k' h]

theorem mhas_mset (m : List (κ × ν)) (k k' : κ) (v : ν) :
    mhas (mset m k v) k' = if k = k' then true else mhas m k' := by
  unfold mhas
  rw [mget_mset]
  by_cases h : k = k' <;> simp [h]

theorem mhas_mdel (m : List (κ × ν)) (k k' : κ) :
    mhas (mdel m k) k' = if k = k' then false else mhas m k' := by
  unfold mhas
  rw [mget_mdel]
  by_cases h : k = k' <;> simp [h]

end MoreMapLemmas

theorem TreeWF.child_ne_root {t : ItemTree} {depth : TreeItem → Nat} {B : Nat}
    (hwf : TreeWF t depth B) {c p : TreeItem}
    (h : mget t.child_to_parent c = some p) : c ≠ t.root := by
  intro he
  rw [he, hwf.root_no_parent] at h
  cases h

theorem TreeWF.child_live {t : ItemTree} {depth : TreeItem → Nat} {B : Nat}
    (hwf : TreeWF t depth B) {c p : TreeItem}
    (h : mget t.child_to_parent c = some p) : live t c := by
  have hne := hwf.child_ne_root h
  unfold live
  rw [hwf.live_iff c hne]
  exact mhas_of_mget _ _ _ h

theorem TreeWF.live_ctp {t : ItemTree} {depth : TreeItem → Nat} {B : Nat}
    (hwf : TreeWF t depth B) {x : TreeItem} (hl : live t x) (hx : x ≠ t.root) :
    ∃ p, mget t.child_to_parent x = some p := by
  have h := hwf.live_iff x hx
  unfold live at hl
  rw [hl] at h
  exact (mhas_iff _ _).1 h.symm

theorem anc_none {t : ItemTree} {x : TreeItem} (f : Nat)
    (hc : mget t.child_to_parent x = none) : ancChain t f x = [] := by
  cases f <;> simp [ancChain, hc]

theorem ancChain_stable {t : ItemTree} {depth : TreeItem → Nat} {B : Nat}
    (hwf : TreeWF t depth B) :
    ∀ (d : Nat) (x : TreeItem) (f g : Nat), depth x ≤ d → depth x ≤ f →
      depth x ≤ g → ancChain t f x = ancChain t g x := by
  intro d
  induction d with
  | zero =>
    intro x f g hd hf hg
    cases hc : mget t.child_to_parent x with
    | none => rw [anc_none f hc, anc_none g hc]
    | some p =>
      have := hwf.depth_lt x p hc
      omega
  | succ d ih =>
    intro x f g hd hf hg
    cases hc : mget t.child_to_parent x with
    | none => rw [anc_none f hc, anc_none g hc]
    | some p =>
      have hdp := hwf.depth_lt x p hc
      cases f with
      | zero => omega
      | succ f =>
        cases g with
        | zero => omega
        | succ g =>
          show ancChain t (f + 1) x = ancChain t (g + 1) x
          simp only [ancChain, hc]
          rw [ih p f g (by omega) (by omega) (by omega)]

theorem anc_step {t : ItemTree} {depth : TreeItem → Nat} {B : Nat}
    (hwf : TreeWF t depth B) {x p : TreeItem}
    (hc : mget t.child_to_parent x = some p) :
    ancChain t (B + 1) x = p :: ancChain t (B + 1) p := by
  have hdx : depth x ≤ B := hwf.depth_le x (hwf.child_live hc)
  have hdp : depth p < depth x := hwf.depth_lt x p hc
  conv_lhs => simp only [ancChain, hc]
  rw [ancChain_stable hwf (depth p) p B (B + 1) le_rfl (by omega) (by omega)]

theorem anc_mem_live {t : ItemTree} {depth : TreeItem → Nat} {B : Nat}
    (hwf : TreeWF t depth B) :
    ∀ (f : Nat) (x a : TreeItem), a ∈ ancChain t f x →
      mhas t.parent_to_children a = true := by
  intro f
  induction f with
  | zero => intro x a ha; cases ha
  | succ f ih =>
    intro x a ha
    cases hc : mget t.child_to_parent x with
    | none => rw [anc_none (f + 1) hc] at ha; cases ha
    | some p =>
      simp only [ancChain, hc] at ha
      rcases List.mem_cons.1 ha with h | h
      · subst h
        exact hwf.parent_live x a hc
      · exact ih p a h

theorem anc_mem_depth {t : ItemTree} {depth : TreeItem → Nat} {B : Nat}
    (hwf : TreeWF t depth B) :
    ∀ (f : Nat) (x a : TreeItem), a ∈ ancChain t f x → depth a < depth x := by
  intro f
  induction f with
  | zero => intro x a ha; cases ha
  | succ f ih =>
    intro x a ha
    cases hc : mget t.child_to_parent x with
    | none => rw [anc_none (f + 1) hc] at ha; cases ha
    | some p =>
      simp only [ancChain, hc] at ha
      have hdp := hwf.depth_lt x p hc
      rcases List.mem_cons.1 ha with h | h
      · subst h; exact hdp
      · exact lt_trans (ih p a h) hdp

theorem anc_trans {t : ItemTree} {depth : TreeItem → Nat} {B : Nat}
    (hwf : TreeWF t depth B) :
    ∀ (d : Nat) (x a b : TreeItem), depth x ≤ d →
      a ∈ ancChain t (B + 1) x → b ∈ ancChain t (B + 1) a →
      b ∈ ancChain t (B + 1) x := by
  intro d
  induction d with
  | zero =>
    intro x a b hd ha hb
    cases hc : mget t.child_to_parent x with
    | none => rw [anc_none (B + 1) hc] at ha; cases ha
    | some p =>
      have := hwf.depth_lt x p hc
      omega
  | succ d ih =>
    intro x a b hd ha hb
    cases hc : mget t.child_to_parent x with
    | none => rw [anc_none (B + 1) hc] at ha; cases ha
    | some p =>
      rw [anc_step hwf hc] at ha ⊢
      have hdp := hwf.depth_lt x p hc
      rcases List.mem_cons.1 ha with h | h
      · subst h
        exact List.mem_cons_of_mem _ hb
      · exact List.mem_cons_of_mem _ (ih p a b (by omega) h hb)

theorem anc_pred {t : ItemTree} {depth : TreeItem → Nat} {B : Nat}
    (hwf : TreeWF t depth B) :
    ∀ (d : Nat) (x a : TreeItem), depth x ≤ d → a ∈ ancChain t (B + 1) x →
      ∃ c, (c = x ∨ c ∈ ancChain t (B + 1) x) ∧
        mget t.child_to_parent c = some a := by
  intro d
  induction d with
  | zero =>
    intro x a hd ha
    cases hc : mget t.child_to_parent x with
    | none => rw [anc_none (B + 1) hc] at ha; cases ha
    | some p =>
      have := hwf.depth_lt x p hc
      omega
  | succ d ih =>
    intro x a hd ha
    cases hc : mget t.child_to_parent x with
    | none => rw [anc_none (B + 1) hc] at ha; cases ha
    | some p =>
      rw [anc_step hwf hc] at ha
      have hdp := hwf.depth_lt x p hc
      rcases List.mem_cons.1 ha with h | h
      · subst h
        exact ⟨x, Or.inl rfl, hc⟩
      · obtain ⟨c, hcmem, hcc⟩ := ih p a (by omega) h
        rcases hcmem with hcp | hcp
        · subst hcp
          exact ⟨c, Or.inr (by rw [anc_step hwf hc]; exact List.mem_cons_self _ _), hcc⟩
        · exact ⟨c, Or.inr (by rw [anc_step hwf hc]; exact List.mem_cons_of_mem _ hcp), hcc⟩

theorem anc_root_mem {t : ItemTree} {depth : TreeItem → Nat} {B : Nat}
    (hwf : TreeWF t depth B) :
    ∀ (d : Nat) (x : TreeItem), depth x ≤ d → live t x →
      x = t.root ∨ t.root ∈ ancChain t (B + 1) x := by
  intro d
  induction d with
  | zero =>
    intro x hd hl
    by_cases hx : x = t.root
    · exact Or.inl hx
    · obtain ⟨p, hp⟩ := hwf.live_ctp hl hx
      have := hwf.depth_lt x p hp
      omega
  | succ d ih =>
    intro x hd hl
    by_cases hx : x = t.root
    · exact Or.inl hx
    · obtain ⟨p, hp⟩ := hwf.live_ctp hl hx
      have hdp := hwf.depth_lt x p hp
      have hpl : live t p := hwf.parent_live x p hp
      rw [anc_step hwf hp]
      rcases ih p (by omega) hpl with h | h
      · exact Or.inr (h ▸ List.mem_cons_self _ _)
      · exact Or.inr (List.mem_cons_of_mem _ h)

theorem firstOutside_cons (S : List TreeItem) (a : TreeItem) (l : List TreeItem) :
    firstOutside S (a :: l) =
      if a ∈ S then firstOutside S l else some a := rfl

theorem firstOutside_isSome (S : List TreeItem) :
    ∀ (l : List TreeItem), (∃ a ∈ l, a ∉ S) →
      ∃ r, firstOutside S l = some r ∧ r ∉ S ∧ r ∈ l := by
  intro l
  induction l with
  | nil => intro h; obtain ⟨a, ha, _⟩ := h; cases ha
  | cons a rest ih =>
    intro h
    rw [firstOutside_cons]
    by_cases ha : a ∈ S
    · rw [if_pos ha]
      obtain ⟨b, hb, hbS⟩ := h
      rcases List.mem_cons.1 hb with hba | hbr
      · subst hba; exact absurd ha hbS
      · obtain ⟨r, h1, h2, h3⟩ := ih ⟨b, hbr, hbS⟩
        exact ⟨r, h1, h2, List.mem_cons_of_mem _ h3⟩
    · exact ⟨a, if_neg ha, ha, List.mem_cons_self _ _⟩

theorem TreeWF.toWFx {t : ItemTree} {depth : TreeItem → Nat} {B : Nat}
    (hwf : TreeWF t depth B) (item : TreeItem) : TreeWFx t item depth B :=
  { root_live := hwf.root_live, root_no_parent := hwf.root_no_parent,
    live_iff := hwf.live_iff, parent_live := hwf.parent_live,
    children_mem := fun p l _ => hwf.children_mem p l,
    children_nodup := fun p l _ => hwf.children_nodup p l,
    depth_lt := hwf.depth_lt, depth_le := hwf.depth_le }

theorem TreeWFx.childx_ne_root {t : ItemTree} {item : TreeItem}
    {depth : TreeItem → Nat} {B : Nat} (hwf : TreeWFx t item depth B)
    {c p : TreeItem} (h : mget t.child_to_parent c = some p) : c ≠ t.root := by
  intro he
  rw [he, hwf.root_no_parent] at h
  cases h

theorem TreeWFx.childx_live {t : ItemTree} {item : TreeItem}
    {depth : TreeItem → Nat} {B : Nat} (hwf : TreeWFx t item depth B)
    {c p : TreeItem} (h : mget t.child_to_parent c = some p) : live t c := by
  have hne := hwf.childx_ne_root h
  unfold live
  rw [hwf.live_iff c hne]
  exact mhas_of_mget _ _ _ h

theorem TreeWFx.livex_ctp {t : ItemTree} {item : TreeItem}
    {depth : TreeItem → Nat} {B : Nat} (hwf : TreeWFx t item depth B)
    {x : TreeItem} (hl : live t x) (hx : x ≠ t.root) :
    ∃ p, mget t.child_to_parent x = some p := by
  have h := hwf.live_iff x hx
  unfold live at hl
  rw [hl] at h
  exact (mhas_iff _ _).1 h.symm

/-- Specification of the final removal block of the loop body: popping a
childless live item from all three dicts preserves well-formedness, removes
exactly that item, and leaves every other parent pointer unchanged. -/
theorem pop_spec {t2 : ItemTree} {depth : TreeItem → Nat} {B : Nat}
    {item0 : TreeItem} (hwf2 : TreeWFx t2 item0 depth B) {item itemParent : TreeItem}
    {plist : List TreeItem} {t3 : ItemTree}
    (hitem0 : item0 = item)
    (hnochild : ∀ c, mget t2.child_to_parent c ≠ some item)
    (hip : mget t2.child_to_parent item = some itemParent)
    (hpl : mget t2.parent_to_children itemParent = some plist)
    (heq : t3 = { t2 with
      parent_to_children :=
        mdel (mset t2.parent_to_children itemParent (plist.erase item)) item,
      child_to_parent := mdel t2.child_to_parent item,
      key_to_item := mdel t2.key_to_item item.key }) :
    TreeWF t3 depth B ∧
    (∀ x, live t3 x ↔ (live t2 x ∧ x ≠ item)) ∧
    (∀ x, x ≠ item → mget t3.child_to_parent x = mget t2.child_to_parent x) ∧
    t3.root = t2.root := by
  have f1 : item ≠ t2.root := hwf2.childx_ne_root hip
  have f2 : itemParent ≠ item := by
    have := hwf2.depth_lt item itemParent hip
    intro he
    rw [he] at this
    omega
  have f3 : plist.Nodup :=
    hwf2.children_nodup itemParent plist (by rw [hitem0]; exact f2) hpl
  have hP3 : ∀ x, mget t3.parent_to_children x =
      if item = x then none
      else if itemParent = x then some (plist.erase item)
      else mget t2.parent_to_children x := by
    intro x
    rw [heq]
    show mget (mdel (mset t2.parent_to_children itemParent (plist.erase item)) item) x = _
    rw [mget_mdel]
    by_cases h1 : item = x
    · rw [if_pos h1, if_pos h1]
    · rw [if_neg h1, if_neg h1, mget_mset]
  have hC3 : ∀ x, mget t3.child_to_parent x =
      if item = x then none else mget t2.child_to_parent x := by
    intro x
    rw [heq]
    show mget (mdel t2.child_to_parent item) x = _
    rw [mget_mdel]
  have hroot3 : t3.root = t2.root := by rw [heq]
  have hlive3 : ∀ x, live t3 x ↔ (live t2 x ∧ x ≠ item) := by
    intro x
    unfold live
    rw [mhas_iff, mhas_iff]
    constructor
    · rintro ⟨l, hl⟩
      rw [hP3 x] at hl
      by_cases h1 : item = x
      · rw [if_pos h1] at hl; cases hl
      · rw [if_neg h1] at hl
        refine ⟨?_, fun he => h1 he.symm⟩
        by_cases h2 : itemParent = x
        · exact ⟨plist, h2 ▸ hpl⟩
        · rw [if_neg h2] at hl
          exact ⟨l, hl⟩
    · rintro ⟨⟨l, hl⟩, hne⟩
      rw [hP3 x, if_neg (fun he => hne he.symm)]
      by_cases h2 : itemParent = x
      · exact ⟨plist.erase item, by rw [if_pos h2]⟩
      · exact ⟨l, by rw [if_neg h2]; exact hl⟩
  have hctp3 : ∀ x, x ≠ item → mget t3.child_to_parent x = mget t2.child_to_parent x := by
    intro x hx
    rw [hC3 x, if_neg (fun he => hx he.symm)]
  refine ⟨?_, hlive3, hctp3, hroot3⟩
  constructor
  · -- root_live
    rw [hroot3]
    have : live t3 t2.root := (hlive3 t2.root).2 ⟨hwf2.root_live, fun he => f1 he.symm⟩
    exact this
  · -- root_no_parent
    rw [hroot3, hctp3 t2.root (fun he => f1 he.symm)]
    exact hwf2.root_no_parent
  · -- live_iff
    intro x hx
    rw [hroot3] at hx
    by_cases h1 : x = item
    · subst h1
      have hp : mhas t3.parent_to_children x = false := by
        rw [mhas_eq_false, hP3 x]
        simp
      have hcf : mhas t3.child_to_parent x = false := by
        rw [mhas_eq_false, hC3 x]
        simp
      rw [hp, hcf]
    · have hcq : mhas t3.child_to_parent x = mhas t2.child_to_parent x := by
        unfold mhas
        rw [hctp3 x h1]
      rw [hcq]
      have hl : mhas t3.parent_to_children x = mhas t2.parent_to_children x := by
        unfold mhas
        rw [hP3 x, if_neg (fun he => h1 he.symm)]
        by_cases h2 : itemParent = x
        · rw [if_pos h2, ← h2, hpl]
          rfl
        · rw [if_neg h2]
      rw [hl]
      exact hwf2.live_iff x hx
  · -- parent_live
    intro c p hc
    by_cases h1 : c = item
    · subst h1
      rw [hC3 c] at hc
      simp at hc
    · rw [hctp3 c h1] at hc
      have hpne : p ≠ item := fun he => hnochild c (he ▸ hc)
      have hl2 : mhas t2.parent_to_children p = true := hwf2.parent_live c p hc
      have : live t3 p := (hlive3 p).2 ⟨hl2, hpne⟩
      exact this
  · -- children_mem
    intro p l hpmem c
    rw [hP3 p] at hpmem
    by_cases h1 : item = p
    · rw [if_pos h1] at hpmem; cases hpmem
    · rw [if_neg h1] at hpmem
      by_cases h2 : itemParent = p
      · rw [if_pos h2] at hpmem
        injection hpmem with hpmem
        subst hpmem
        rw [List.Nodup.mem_erase_iff f3]
        constructor
        · rintro ⟨hne, hmem⟩
          have := (hwf2.children_mem itemParent plist
            (by rw [hitem0]; exact f2) hpl c).1 hmem
          rw [hctp3 c hne, ← h2]
          exact this
        · intro hc
          have hcne : c ≠ item := by
            intro he
            subst he
            rw [hC3 c] at hc
            simp at hc
          rw [hctp3 c hcne] at hc
          exact ⟨hcne, (hwf2.children_mem itemParent plist
            (by rw [hitem0]; exact f2) hpl c).2 (h2 ▸ hc)⟩
      · rw [if_neg h2] at hpmem
        have hbase := hwf2.children_mem p l
          (by rw [hitem0]; intro he; exact h1 he.symm) hpmem c
        constructor
        · intro hcl
          have hc2 := hbase.1 hcl
          have hcne : c ≠ item := by
            intro he
            subst he
            rw [hip] at hc2
            injection hc2 with hc2
            exact h2 hc2
          rw [hctp3 c hcne]
          exact hc2
        · intro hc
          have hcne : c ≠ item := by
            intro he
            subst he
            rw [hC3 c] at hc
            simp at hc
          rw [hctp3 c hcne] at hc
          exact hbase.2 hc
  · -- children_nodup
    intro p l hpmem
    rw [hP3 p] at hpmem
    by_cases h1 : item = p
    · rw [if_pos h1] at hpmem; cases hpmem
    · rw [if_neg h1] at hpmem
      by_cases h2 : itemParent = p
      · rw [if_pos h2] at hpmem
        injection hpmem with hpmem
        subst hpmem
        exact f3.erase item
      · rw [if_neg h2] at hpmem
        exact hwf2.children_nodup p l
          (by rw [hitem0]; intro he; exact h1 he.symm) hpmem
  · -- depth_lt
    intro c p hc
    by_cases h1 : c = item
    · subst h1
      rw [hC3 c] at hc
      simp at hc
    · rw [hctp3 c h1] at hc
      exact hwf2.depth_lt c p hc
  · -- depth_le
    intro c hc
    have hc3 : live t3 c := hc
    have := (hlive3 c).1 hc3
    exact hwf2.depth_le c this.1

/-- Ancestor chains are preserved when passing to a sub-tree state whose
parent pointers agree on live items. -/
theorem anc_restrict {t t2 : ItemTree} {depth : TreeItem → Nat} {B : Nat}
    (hwf : TreeWF t depth B) (hwf2 : TreeWF t2 depth B)
    (hctp : ∀ x, live t2 x → mget t2.child_to_parent x = mget t.child_to_parent x) :
    ∀ (d : Nat) (x : TreeItem), depth x ≤ d → live t2 x →
      ancChain t2 (B + 1) x = ancChain t (B + 1) x := by
  intro d
  induction d with
  | zero =>
    intro x hd hx
    cases hc : mget t2.child_to_parent x with
    | none =>
      rw [anc_none (B + 1) hc, anc_none (B + 1) (by rw [← hctp x hx]; exact hc)]
    | some p =>
      have := hwf2.depth_lt x p hc
      omega
  | succ d ih =>
    intro x hd hx
    cases hc : mget t2.child_to_parent x with
    | none =>
      rw [anc_none (B + 1) hc, anc_none (B + 1) (by rw [← hctp x hx]; exact hc)]
    | some p =>
      have hct : mget t.child_to_parent x = some p := by rw [← hctp x hx]; exact hc
      have hpl : live t2 p := hwf2.parent_live x p hc
      have hdp := hwf2.depth_lt x p hc
      rw [anc_step hwf2 hc, anc_step hwf hct, ih p (by omega) hpl]

/-- Membership facts about a children list of a well-formed tree. -/
theorem children_facts {t : ItemTree} {depth : TreeItem → Nat} {B : Nat}
    (hwf : TreeWF t depth B) {item : TreeItem} {children : List TreeItem}
    (hptc : mget t.parent_to_children item = some children) :
    item ∉ children ∧ (∀ c ∈ children, depth item < depth c) ∧
    (∀ c ∈ children, c ≠ t.root) := by
  refine ⟨?_, ?_, ?_⟩
  · intro hmem
    have := (hwf.children_mem item children hptc item).1 hmem
    have hlt := hwf.depth_lt item item this
    omega
  · intro c hc
    have := (hwf.children_mem item children hptc c).1 hc
    exact hwf.depth_lt c item this
  · intro c hc
    have := (hwf.children_mem item children hptc c).1 hc
    exact hwf.child_ne_root this

/-- The subtree of an item, expressed through its children: an item x is
item itself or below it exactly when x is item or below one of its
children. -/
theorem subtree_char {t : ItemTree} {depth : TreeItem → Nat} {B : Nat}
    (hwf : TreeWF t depth B) {item : TreeItem} {children : List TreeItem}
    (hptc : mget t.parent_to_children item = some children) (x : TreeItem) :
    ((∃ i ∈ children, i = x ∨ i ∈ ancChain t (B + 1) x) ∨ x = item) ↔
      (item = x ∨ item ∈ ancChain t (B + 1) x) := by
  constructor
  · rintro (⟨i, hiC, hix⟩ | hxi)
    · have hictp : mget t.child_to_parent i = some item :=
        (hwf.children_mem item children hptc i).1 hiC
      rcases hix with hix | hix
      · subst hix
        exact Or.inr (by rw [anc_step hwf hictp]; exact List.mem_cons_self _ _)
      · refine Or.inr ?_
        have hitem : item ∈ ancChain t (B + 1) i := by
          rw [anc_step hwf hictp]
          exact List.mem_cons_self _ _
        exact anc_trans hwf (depth x) x i item le_rfl hix hitem
    · exact Or.inl hxi.symm
  · rintro (hix | hix)
    · exact Or.inr hix.symm
    · obtain ⟨c, hcmem, hcc⟩ := anc_pred hwf (depth x) x item le_rfl hix
      have hcC : c ∈ children := (hwf.children_mem item children hptc c).2 hcc
      rcases hcmem with hcx | hcx
      · exact Or.inl ⟨c, hcC, Or.inl hcx⟩
      · exact Or.inl ⟨c, hcC, Or.inr hcx⟩

/-- Composition of removal characterizations: a stage that removes the
subtree of item followed by a stage that removes the subtrees of P-members
(relative to the intermediate tree) removes the subtrees of item :: P. -/
theorem delete_compose {t t3 t4 : ItemTree} {depth : TreeItem → Nat} {B : Nat}
    {item : TreeItem} {P : List TreeItem}
    (hwf : TreeWF t depth B) (hwf3 : TreeWF t3 depth B)
    (hmid : ∀ x, live t3 x ↔
      (live t x ∧ ¬ (item = x ∨ item ∈ ancChain t (B + 1) x)))
    (hmidctp : ∀ x, live t3 x →
      mget t3.child_to_parent x = mget t.child_to_parent x)
    (hchar : ∀ x, live t4 x ↔
      (live t3 x ∧ ¬ ∃ i ∈ P, i = x ∨ i ∈ ancChain t3 (B + 1) x))
    (hctp : ∀ x, live t4 x →
      mget t4.child_to_parent x = mget t3.child_to_parent x) :
    (∀ x, live t4 x ↔ (live t x ∧
      ¬ ∃ i ∈ item :: P, i = x ∨ i ∈ ancChain t (B + 1) x)) ∧
    (∀ x, live t4 x → mget t4.child_to_parent x = mget t.child_to_parent x) := by
  constructor
  · intro x
    by_cases h3 : live t3 x
    · have hanc : ancChain t3 (B + 1) x = ancChain t (B + 1) x :=
        anc_restrict hwf hwf3 hmidctp (depth x) x le_rfl h3
      rw [hchar x, hanc]
      have hmid' := (hmid x).1 h3
      constructor
      · rintro ⟨_, hnex⟩
        refine ⟨hmid'.1, ?_⟩
        rintro ⟨i, hi, hix⟩
        rcases List.mem_cons.1 hi with hi | hi
        · subst hi
          exact hmid'.2 hix
        · exact hnex ⟨i, hi, hix⟩
      · rintro ⟨_, hnex⟩
        refine ⟨h3, ?_⟩
        rintro ⟨i, hi, hix⟩
        exact hnex ⟨i, List.mem_cons_of_mem _ hi, hix⟩
    · constructor
      · intro h4
        exact absurd ((hchar x).1 h4).1 h3
      · rintro ⟨hlx, hnex⟩
        exfalso
        refine h3 ((hmid x).2 ⟨hlx, ?_⟩)
        intro hix
        exact hnex ⟨item, List.mem_cons_self _ _, hix⟩
  · intro x h4
    have h3 : live t3 x := ((hchar x).1 h4).1
    rw [hctp x h4, hmidctp x h3]

/-- Characterization of processing one item in delete mode: removing the
subtrees of its children and then popping the item removes exactly the
subtree of the item. -/
theorem mid_spec {t t2 t3 : ItemTree} {depth : TreeItem → Nat} {B : Nat}
    {item : TreeItem} {children : List TreeItem}
    (hwf : TreeWF t depth B)
    (hptc : mget t.parent_to_children item = some children)
    (hchar2 : ∀ x, live t2 x ↔
      (live t x ∧ ¬ ∃ i ∈ children, i = x ∨ i ∈ ancChain t (B + 1) x))
    (hctp2 : ∀ x, live t2 x →
      mget t2.child_to_parent x = mget t.child_to_parent x)
    (hpop : ∀ x, live t3 x ↔ (live t2 x ∧ x ≠ item))
    (hpopctp : ∀ x, x ≠ item →
      mget t3.child_to_parent x = mget t2.child_to_parent x) :
    (∀ x, live t3 x ↔
      (live t x ∧ ¬ (item = x ∨ item ∈ ancChain t (B + 1) x))) ∧
    (∀ x, live t3 x → mget t3.child_to_parent x = mget t.child_to_parent x) := by
  constructor
  · intro x
    rw [hpop x, hchar2 x, ← subtree_char hwf hptc x]
    constructor
    · rintro ⟨⟨hlx, hnex⟩, hne⟩
      refine ⟨hlx, ?_⟩
      rintro (hl | hr)
      · exact hnex hl
      · exact hne hr
    · rintro ⟨hlx, hnex⟩
      exact ⟨⟨hlx, fun hl => hnex (Or.inl hl)⟩, fun hr => hnex (Or.inr hr)⟩
  · intro x h3
    have h2 : live t2 x := ((hpop x).1 h3).1
    have hne : x ≠ item := ((hpop x).1 h3).2
    rw [hpopctp x hne, hctp2 x h2]

/-- The main specification of the delete mode of the removal loop: the run
terminates with the state of a prefix of the pending items processed, the
tree stays well formed with the root alive, exactly the subtrees of the
processed items are removed, surviving parent pointers are untouched, a
normal return means the whole list was processed, and an exception is an
ItemLookupError raised at the first pending item that is no longer in the
tree. -/
theorem removeLoop_delete_spec :
    ∀ (fuel : Nat) (depth : TreeItem → Nat) (B : Nat)
      (itemsAll pending : List TreeItem) (t : ItemTree) (removed : List TreeItem),
      TreeWF t depth B →
      (∀ i ∈ pending, i ≠ t.root) →
      (∀ i ∈ pending, B < depth i + fuel) →
      ∃ t2 res P,
        removeLoop fuel t pending itemsAll "delete" removed = some (t2, res) ∧
        P <+: pending ∧
        TreeWF t2 depth B ∧
        t2.root = t.root ∧
        (∀ x, live t2 x ↔ (live t x ∧
          ¬ ∃ i ∈ P, i = x ∨ i ∈ ancChain t (B + 1) x)) ∧
        (∀ x, live t2 x → mget t2.child_to_parent x = mget t.child_to_parent x) ∧
        ((∃ rs, res = Except.ok rs) → P = pending) ∧
        (res = Except.error TreeExc.itemLookupError ∨ ∃ rs, res = Except.ok rs) ∧
        (∀ e, res = Except.error e →
          ∃ x Q, pending = P ++ x :: Q ∧ ¬ live t2 x) := by
  intro fuel
  induction fuel using Nat.strong_induction_on with
  | _ fuel ihf =>
  intro depth B itemsAll pending
  induction pending with
  | nil =>
    intro t removed hwf hpend hfuel
    refine ⟨t, Except.ok removed, [], by rw [removeLoop], ⟨[], rfl⟩, hwf, rfl,
      ?_, fun x _ => rfl, fun _ => rfl, Or.inr ⟨removed, rfl⟩, ?_⟩
    · intro x
      simp
    · intro e he
      simp at he
  | cons item rest ihp =>
    intro t removed hwf hpend hfuel
    cases hptc : mget t.parent_to_children item with
    | none =>
      refine ⟨t, Except.error TreeExc.itemLookupError, [],
        by rw [removeLoop, hptc], ⟨item :: rest, rfl⟩, hwf, rfl, ?_,
        fun x _ => rfl, ?_, Or.inl rfl, ?_⟩
      · intro x
        simp
      · rintro ⟨rs, h⟩
        simp at h
      · intro e he
        refine ⟨item, rest, rfl, ?_⟩
        intro hl
        unfold live at hl
        rw [(mhas_eq_false _ _).2 hptc] at hl
        cases hl
    | some children =>
      have hlitem : live t item := by
        unfold live
        exact mhas_of_mget _ _ _ hptc
      have hiroot : item ≠ t.root := hpend item (List.mem_cons_self _ _)
      obtain ⟨itemParent, hip⟩ := hwf.live_ctp hlitem hiroot
      obtain ⟨cf1, cf2, cf3⟩ := children_facts hwf hptc
      by_cases hch : children = []
      · subst hch
        have hnochild : ∀ c, mget t.child_to_parent c ≠ some item := by
          intro c hc
          have hmem := (hwf.children_mem item [] hptc c).2 hc
          cases hmem
        obtain ⟨plist, hpl⟩ :=
          (mhas_iff _ _).1 (hwf.parent_live item itemParent hip)
        obtain ⟨hwf3, hpop, hpopctp, hroot3⟩ :=
          pop_spec (TreeWF.toWFx hwf item) rfl hnochild hip hpl rfl
        have hchar2t : ∀ x, live t x ↔ (live t x ∧
            ¬ ∃ i ∈ ([] : List TreeItem), i = x ∨ i ∈ ancChain t (B + 1) x) := by
          intro x
          simp
        have hmid := mid_spec hwf hptc hchar2t (fun x _ => rfl) hpop hpopctp
        obtain ⟨t4, res, P4, hrun4, hpre4, hwf4, hroot4, hchar4, hctp4,
            hok4, hdisj4, herr4⟩ :=
          ihp _ (removed ++ [item]) hwf3
            (fun i hi => by rw [hroot3]; exact hpend i (List.mem_cons_of_mem _ hi))
            (fun i hi => hfuel i (List.mem_cons_of_mem _ hi))
        have hcomp := delete_compose hwf hwf3 hmid.1 hmid.2 hchar4 hctp4
        refine ⟨t4, res, item :: P4, ?_, ?_, hwf4,
          by rw [hroot4, hroot3], hcomp.1, hcomp.2, ?_, hdisj4, ?_⟩
        · rw [removeLoop, hptc]
          simp only [hip, hpl, if_true]
          exact hrun4
        · obtain ⟨tl, htl⟩ := hpre4
          exact ⟨tl, by rw [List.cons_append, htl]⟩
        · intro hex
          rw [hok4 hex]
        · intro e he
          obtain ⟨x, Q, hxQ, hlx⟩ := herr4 e he
          exact ⟨x, Q, by rw [List.cons_append, hxQ], hlx⟩
      · have hfne : fuel ≠ 0 := by
          intro h0
          have h1 := hfuel item (List.mem_cons_self _ _)
          have h2 : depth item ≤ B := hwf.depth_le item hlitem
          omega
        obtain ⟨f, rfl⟩ : ∃ f, fuel = f + 1 := ⟨fuel - 1, by omega⟩
        obtain ⟨t2, res2, P2, hrun2, hpre2, hwf2, hroot2, hchar2, hctp2,
            hok2, hdisj2, herr2⟩ :=
          ihf f (by omega) depth B children children t [] hwf cf3
            (fun c hc => by
              have h1 := cf2 c hc
              have h2 := hfuel item (List.mem_cons_self _ _)
              omega)
        have hcnd : children.Nodup := hwf.children_nodup item children hptc
        have hres2ok : ∃ rs, res2 = Except.ok rs := by
          rcases hdisj2 with herrc | hok
          · exfalso
            obtain ⟨c, Q, hcQ, hlc⟩ := herr2 _ herrc
            have hcC : c ∈ children := by
              rw [hcQ]
              exact List.mem_append_right _ (List.mem_cons_self _ _)
            have hcctp := (hwf.children_mem item children hptc c).1 hcC
            have hlc0 : live t c := hwf.child_live hcctp
            have hex : ∃ i ∈ P2, i = c ∨ i ∈ ancChain t (B + 1) c := by
              by_contra hnex
              exact hlc ((hchar2 c).2 ⟨hlc0, hnex⟩)
            obtain ⟨i, hiP, hic⟩ := hex
            obtain ⟨tl2, htl2⟩ := hpre2
            have hiC : i ∈ children := by
              rw [← htl2]
              exact List.mem_append_left _ hiP
            rcases hic with hic | hic
            · have hnd2 : (P2 ++ c :: Q).Nodup := hcQ ▸ hcnd
              have hdisj := (List.nodup_append.1 hnd2).2.2
              rw [hic] at hiP
              exact hdisj hiP (List.mem_cons_self _ _)
            · rw [anc_step hwf hcctp] at hic
              rcases List.mem_cons.1 hic with hii | hii
              · subst hii
                exact cf1 hiC
              · have hd1 := anc_mem_depth hwf (B + 1) item i hii
                have hd2 := cf2 i hiC
                omega
          · exact hok
        obtain ⟨rs, hres2⟩ := hres2ok
        subst hres2
        have hP2 : P2 = children := hok2 ⟨rs, rfl⟩
        subst hP2
        have hlitem2 : live t2 item := by
          refine (hchar2 item).2 ⟨hlitem, ?_⟩
          rintro ⟨i, hiC, hii⟩
          rcases hii with hii | hii
          · subst hii
            exact cf1 hiC
          · have hd1 := anc_mem_depth hwf (B + 1) item i hii
            have hd2 := cf2 i hiC
            omega
        have hip2 : mget t2.child_to_parent item = some itemParent := by
          rw [hctp2 item hlitem2]
          exact hip
        have hnochild2 : ∀ c, mget t2.child_to_parent c ≠ some item := by
          intro c hc
          have hlc2 : live t2 c := hwf2.child_live hc
          have hct : mget t.child_to_parent c = some item := by
            rw [← hctp2 c hlc2]
            exact hc
          have hcC : c ∈ P2 := (hwf.children_mem item P2 hptc c).2 hct
          exact ((hchar2 c).1 hlc2).2 ⟨c, hcC, Or.inl rfl⟩
        have hlparent2 : live t2 itemParent := by
          refine (hchar2 itemParent).2 ⟨?_, ?_⟩
          · unfold live
            exact hwf.parent_live item itemParent hip
          · rintro ⟨i, hiC, hii⟩
            have hd0 := cf2 i hiC
            have hdp := hwf.depth_lt item itemParent hip
            rcases hii with hii | hii
            · subst hii
              omega
            · have hd1 := anc_mem_depth hwf (B + 1) itemParent i hii
              omega
        obtain ⟨plist2, hpl2⟩ := (mhas_iff _ _).1 hlparent2
        obtain ⟨hwf3, hpop, hpopctp, hroot3⟩ :=
          pop_spec (TreeWF.toWFx hwf2 item) rfl hnochild2 hip2 hpl2 rfl
        have hmid := mid_spec hwf hptc hchar2 hctp2 hpop hpopctp
        obtain ⟨t4, res, P4, hrun4, hpre4, hwf4, hroot4, hchar4, hctp4,
            hok4, hdisj4, herr4⟩ :=
          ihp _ (removed ++ (rs ++ [item])) hwf3
            (fun i hi => by
              rw [hroot3, hroot2]
              exact hpend i (List.mem_cons_of_mem _ hi))
            (fun i hi => hfuel i (List.mem_cons_of_mem _ hi))
        have hcomp := delete_compose hwf hwf3 hmid.1 hmid.2 hchar4 hctp4
        have hunf : remove_items (f + 1) t P2 "delete" =
            removeLoop f t P2 P2 "delete" [] := by
          rw [remove_items]
          have hfilter : P2.filter (fun i => decide (¬ i = t.root)) = P2 :=
            List.filter_eq_self.mpr (fun c hc => by simp [cf3 c hc])
          simp only [hfilter, if_neg hch, true_or, if_true]
        have hrec : remove_items (f + 1) t P2 "delete" =
            some (t2, Except.ok rs) := by
          rw [hunf]
          exact hrun2
        refine ⟨t4, res, item :: P4, ?_, ?_, hwf4,
          by rw [hroot4, hroot3, hroot2], hcomp.1, hcomp.2, ?_, hdisj4, ?_⟩
        · rw [removeLoop, hptc]
          simp only [if_neg hch, hrec, hip2, hpl2, if_true, List.append_assoc]
          exact hrun4
        · obtain ⟨tl, htl⟩ := hpre4
          exact ⟨tl, by rw [List.cons_append, htl]⟩
        · intro hex
          rw [hok4 hex]
        · intro e he
          obtain ⟨x, Q, hxQ, hlx⟩ := herr4 e he
          exact ⟨x, Q, by rw [List.cons_append, hxQ], hlx⟩

/-- Value characterization of firstOutside. -/
theorem firstOutside_eq_some (S : List TreeItem) :
    ∀ (l : List TreeItem) (r : TreeItem), firstOutside S l = some r →
      r ∉ S ∧ r ∈ l := by
  intro l
  induction l with
  | nil => intro r hr; cases hr
  | cons a rest ih =>
    intro r hr
    rw [firstOutside_cons] at hr
    by_cases ha : a ∈ S
    · rw [if_pos ha] at hr
      obtain ⟨h1, h2⟩ := ih r hr
      exact ⟨h1, List.mem_cons_of_mem _ h2⟩
    · rw [if_neg ha] at hr
      injection hr with hr
      subst hr
      exact ⟨ha, List.mem_cons_self _ _⟩

/-- The bulk child-to-parent update of the reparent branch. -/
theorem fold_mset_mget (np : TreeItem) :
    ∀ (children : List TreeItem) (m : List (TreeItem × TreeItem)) (x : TreeItem),
      mget (children.foldl (fun m c => mset m c np) m) x =
        if x ∈ children then some np else mget m x := by
  intro children
  induction children with
  | nil => intro m x; simp
  | cons c cs ih =>
    intro m x
    rw [List.foldl_cons, ih]
    by_cases hx : x ∈ cs
    · rw [if_pos hx, if_pos (List.mem_cons_of_mem _ hx)]
    · rw [if_neg hx]
      by_cases hxc : x = c
      · subst hxc
        rw [if_pos (List.mem_cons_self _ _), mget_mset_self]
      · rw [mget_mset_ne _ _ _ _ (fun he => hxc he.symm),
          if_neg (by simp [hxc, hx])]

/-- The while loop of the reparent branch terminates at the nearest original
ancestor outside the removal set, under the loop invariant on current
parent pointers. -/
theorem climb_spec {t0 t : ItemTree} {depth : TreeItem → Nat} {B : Nat}
    {S P : List TreeItem}
    (hwf0 : TreeWF t0 depth B) (_hwf : TreeWF t depth B)
    (_hroot : t.root = t0.root) (hrootS : t0.root ∉ S)
    (hchar : ∀ x, live t x ↔ (live t0 x ∧ x ∉ P))
    (hcur : ∀ x, live t x → x ≠ t0.root →
      mget t.child_to_parent x = currentParent t0 B S P x)
    (hPS : ∀ i ∈ P, i ∈ S) :
    ∀ (d : Nat) (q : TreeItem) (fuel : Nat) (r : TreeItem), depth q ≤ d →
      live t q → depth q + 1 ≤ fuel →
      firstOutside S (q :: ancChain t0 (B + 1) q) = some r →
      climbWhile t S fuel q = some (Except.ok r) := by
  intro d
  induction d with
  | zero =>
    intro q fuel r hd hq hfuel hfo
    obtain ⟨fuel, rfl⟩ : ∃ f, fuel = f + 1 := ⟨fuel - 1, by omega⟩
    rw [climbWhile]
    by_cases hqS : q ∈ S
    · exfalso
      have hq0 : live t0 q := ((hchar q).1 hq).1
      have hqroot : q ≠ t0.root := by
        intro he
        rw [he] at hqS
        exact hrootS hqS
      obtain ⟨p, hp⟩ := hwf0.live_ctp hq0 hqroot
      have := hwf0.depth_lt q p hp
      omega
    · rw [if_neg hqS]
      rw [firstOutside_cons, if_neg hqS] at hfo
      injection hfo with hfo
      rw [hfo]
  | succ d ih =>
    intro q fuel r hd hq hfuel hfo
    obtain ⟨fuel, rfl⟩ : ∃ f, fuel = f + 1 := ⟨fuel - 1, by omega⟩
    rw [climbWhile]
    by_cases hqS : q ∈ S
    · rw [if_pos hqS]
      rw [firstOutside_cons, if_pos hqS] at hfo
      have hq0 : live t0 q := ((hchar q).1 hq).1
      have hqroot : q ≠ t0.root := by
        intro he
        rw [he] at hqS
        exact hrootS hqS
      obtain ⟨p, hp⟩ := hwf0.live_ctp hq0 hqroot
      have hdp := hwf0.depth_lt q p hp
      have hcq : mget t.child_to_parent q = currentParent t0 B S P q :=
        hcur q hq hqroot
      simp only [currentParent, hp] at hcq
      rw [anc_step hwf0 hp] at hfo
      by_cases hpP : p ∈ P
      · rw [if_pos hpP] at hcq
        have hres : resolveOut t0 B S p = some r := by
          rw [resolveOut, firstOutside_cons]
          by_cases hpS : p ∈ S
          · rw [if_pos hpS]
            rw [firstOutside_cons, if_pos hpS] at hfo
            exact hfo
          · exact absurd (hPS p hpP) hpS
        rw [hres] at hcq
        rw [hcq]
        obtain ⟨hrS, hrmem⟩ := firstOutside_eq_some S _ r hres
        have hdr : depth r ≤ depth p := by
          rcases List.mem_cons.1 hrmem with h | h
          · rw [h]
          · have := anc_mem_depth hwf0 (B + 1) p r h
            omega
        show climbWhile t S fuel r = some (Except.ok r)
        obtain ⟨fuel2, rfl⟩ : ∃ f, fuel = f + 1 := ⟨fuel - 1, by omega⟩
        rw [climbWhile, if_neg hrS]
      · rw [if_neg hpP] at hcq
        rw [hcq]
        have hpl : live t p := by
          rw [hchar p]
          refine ⟨?_, hpP⟩
          unfold live
          exact hwf0.parent_live q p hp
        refine ih p fuel r (by omega) hpl (by omega) ?_
        rw [firstOutside_cons]
        by_cases hpS : p ∈ S
        · rw [if_pos hpS]
          rw [firstOutside_cons, if_pos hpS] at hfo
          exact hfo
        · rw [if_neg hpS]
          rw [firstOutside_cons, if_neg hpS] at hfo
          exact hfo
    · rw [if_neg hqS]
      rw [firstOutside_cons, if_neg hqS] at hfo
      injection hfo with hfo
      rw [hfo]

/-- One iteration of the removal loop in reparent mode: the processed item
disappears, its current children are re-attached to the nearest original
ancestor outside the removal set, and the loop invariant advances by one
processed item. -/
theorem reparent_step {t0 t : ItemTree} {depth : TreeItem → Nat} {B : Nat}
    {S P : List TreeItem} {item : TreeItem} {children : List TreeItem}
    {fuel : Nat}
    (hwf0 : TreeWF t0 depth B)
    (hrootS : t0.root ∉ S)
    (hfuel : B + 2 ≤ fuel)
    (hwf : TreeWF t depth B) (hroot : t.root = t0.root)
    (hchar : ∀ x, live t x ↔ (live t0 x ∧ x ∉ P))
    (hcur : ∀ x, live t x → x ≠ t0.root →
      mget t.child_to_parent x = currentParent t0 B S P x)
    (hPS : ∀ i ∈ P, i ∈ S)
    (hitemS : item ∈ S) (hitemP : item ∉ P)
    (hlive0 : live t0 item)
    (hptc : mget t.parent_to_children item = some children) :
    ∀ (rest removed : List TreeItem),
    ∃ t3, removeLoop fuel t (item :: rest) S "reparent" removed =
        removeLoop fuel t3 rest S "reparent" (removed ++ [item]) ∧
      TreeWF t3 depth B ∧ t3.root = t0.root ∧
      (∀ x, live t3 x ↔ (live t0 x ∧ x ∉ P ++ [item])) ∧
      (∀ x, live t3 x → x ≠ t0.root →
        mget t3.child_to_parent x = currentParent t0 B S (P ++ [item]) x) := by
  intro rest removed
  have hlitem : live t item := (hchar item).2 ⟨hlive0, hitemP⟩
  have hitemroot : item ≠ t0.root := by
    intro he
    rw [he] at hitemS
    exact hrootS hitemS
  have hitemroot2 : item ≠ t.root := by
    rw [hroot]
    exact hitemroot
  obtain ⟨p0, hip⟩ := hwf.live_ctp hlitem hitemroot2
  obtain ⟨pt, hpt⟩ := hwf0.live_ctp hlive0 hitemroot
  have hcuritem := hcur item hlitem hitemroot
  rw [hip] at hcuritem
  simp only [currentParent, hpt] at hcuritem
  have hchildmem : ∀ c, c ∈ children ↔ mget t.child_to_parent c = some item :=
    hwf.children_mem item children hptc
  have hchildorig : ∀ c, mget t.child_to_parent c = some item →
      mget t0.child_to_parent c = some item := by
    intro c hc
    have hlc : live t c := hwf.child_live hc
    have hcroot : c ≠ t0.root := by
      rw [← hroot]
      exact hwf.child_ne_root hc
    have hc2 := hcur c hlc hcroot
    rw [hc] at hc2
    cases hct : mget t0.child_to_parent c with
    | none => simp [currentParent, hct] at hc2
    | some pc =>
      simp only [currentParent, hct] at hc2
      by_cases hpc : pc ∈ P
      · rw [if_pos hpc] at hc2
        obtain ⟨hnS, _⟩ := firstOutside_eq_some S _ item hc2.symm
        exact absurd hitemS hnS
      · rw [if_neg hpc] at hc2
        injection hc2 with hc2
        rw [hc2]
  have hcur_adv : ∀ x, live t x → x ≠ t0.root → x ∉ children →
      currentParent t0 B S (P ++ [item]) x = currentParent t0 B S P x := by
    intro x hlx hxroot hxch
    cases hct : mget t0.child_to_parent x with
    | none => simp [currentParent, hct]
    | some pc =>
      simp only [currentParent, hct]
      by_cases hpc : pc ∈ P
      · rw [if_pos hpc, if_pos (List.mem_append_left _ hpc)]
      · by_cases hpci : pc = item
        · subst hpci
          exfalso
          have hc2 := hcur x hlx hxroot
          simp only [currentParent, hct, if_neg hpc] at hc2
          exact hxch ((hchildmem x).2 hc2)
        · rw [if_neg hpc, if_neg ?_]
          intro hmem
          rcases List.mem_append.1 hmem with h | h
          · exact hpc h
          · exact hpci (List.mem_singleton.1 h)
  by_cases hch : children = []
  · subst hch
    have hnochild : ∀ c, mget t.child_to_parent c ≠ some item := by
      intro c hc
      have := (hchildmem c).2 hc
      cases this
    obtain ⟨plist, hpl⟩ :=
      (mhas_iff _ _).1 (hwf.parent_live item p0 hip)
    obtain ⟨hwf3, hpop, hpopctp, hroot3⟩ :=
      pop_spec (TreeWF.toWFx hwf item) rfl hnochild hip hpl rfl
    refine ⟨_, ?_, hwf3, by rw [hroot3]; exact hroot, ?_, ?_⟩
    · rw [removeLoop, hptc]
      simp only [hip, hpl, if_true]
    · intro x
      rw [hpop x, hchar x]
      simp only [List.mem_append, List.mem_singleton]
      constructor
      · rintro ⟨⟨h1, h2⟩, h3⟩
        exact ⟨h1, by rintro (h | h); exact h2 h; exact h3 h⟩
      · rintro ⟨h1, h2⟩
        exact ⟨⟨h1, fun h => h2 (Or.inl h)⟩, fun h => h2 (Or.inr h)⟩
    · intro x hlx3 hxroot
      have hlx : live t x := ((hpop x).1 hlx3).1
      have hxitem : x ≠ item := ((hpop x).1 hlx3).2
      rw [hpopctp x hxitem, hcur x hlx hxroot,
        hcur_adv x hlx hxroot (by intro h; cases h)]
  · -- children is nonempty: splice them onto the nearest ancestor outside S
    have hrootmem : t0.root ∈ ancChain t0 (B + 1) item := by
      rcases anc_root_mem hwf0 (depth item) item le_rfl hlive0 with h | h
      · exact absurd h.symm (by intro he; exact hitemroot he.symm)
      · exact h
    obtain ⟨np, hnp, hnpS, hnpmem⟩ :=
      firstOutside_isSome S (ancChain t0 (B + 1) item) ⟨t0.root, hrootmem, hrootS⟩
    have hnplive0 : live t0 np := anc_mem_live hwf0 (B + 1) item np hnpmem
    have hnpP : np ∉ P := fun h => hnpS (hPS np h)
    have hnplive : live t np := (hchar np).2 ⟨hnplive0, hnpP⟩
    obtain ⟨npc, hnpc⟩ := (mhas_iff _ _).1 hnplive
    have hnpitem : np ≠ item := by
      intro he
      rw [he] at hnpS
      exact hnpS hitemS
    have hnpdepth : depth np < depth item :=
      anc_mem_depth hwf0 (B + 1) item np hnpmem
    -- the value the while loop must return, fed to climb_spec
    have hfo : firstOutside S (p0 :: ancChain t0 (B + 1) p0) = some np := by
      by_cases hptP : pt ∈ P
      · rw [if_pos hptP] at hcuritem
        have hres : resolveOut t0 B S pt = some p0 := hcuritem.symm
        obtain ⟨hp0S, hp0mem⟩ := firstOutside_eq_some S _ p0 hres
        have hnp2 : np = p0 := by
          have : firstOutside S (ancChain t0 (B + 1) item) = some p0 := by
            rw [anc_step hwf0 hpt]
            rw [resolveOut, firstOutside_cons] at hres
            rw [firstOutside_cons]
            by_cases hptS : pt ∈ S
            · rw [if_pos hptS]
              rw [if_pos hptS] at hres
              exact hres
            · exact absurd (hPS pt hptP) hptS
          rw [hnp] at this
          injection this
        rw [firstOutside_cons, if_neg hp0S, hnp2]
      · rw [if_neg hptP] at hcuritem
        injection hcuritem with hcuritem
        subst hcuritem
        rw [← hnp, anc_step hwf0 hpt]
    have hp0live : live t p0 := by
      by_cases hptP : pt ∈ P
      · rw [if_pos hptP] at hcuritem
        have hres : resolveOut t0 B S pt = some p0 := hcuritem.symm
        obtain ⟨hp0S, hp0mem⟩ := firstOutside_eq_some S _ p0 hres
        refine (hchar p0).2 ⟨?_, fun h => hp0S (hPS p0 h)⟩
        rcases List.mem_cons.1 hp0mem with h | h
        · rw [h] at hp0S
          exact absurd (hPS pt hptP) hp0S
        · exact anc_mem_live hwf0 (B + 1) pt p0 h
      · rw [if_neg hptP] at hcuritem
        injection hcuritem with hcuritem
        subst hcuritem
        refine (hchar p0).2 ⟨?_, hptP⟩
        unfold live
        exact hwf0.parent_live item p0 hpt
    have hp0B : depth p0 ≤ B := hwf.depth_le p0 hp0live
    have hclimb : climbWhile t S fuel p0 = some (Except.ok np) :=
      climb_spec hwf0 hwf hroot hrootS hchar hcur hPS (depth p0) p0 fuel np
        le_rfl hp0live (by omega) hfo
    have hitemch : item ∉ children := by
      intro h
      have := (hchildmem item).1 h
      have := hwf.depth_lt item item this
      omega
    have hipq : mget (children.foldl (fun m c => mset m c np) t.child_to_parent)
        item = some p0 := by
      rw [fold_mset_mget, if_neg hitemch]
      exact hip
    obtain ⟨p0l, hp0l⟩ := (mhas_iff _ _).1 hp0live
    have hplq : mget (mset t.parent_to_children np (npc ++ children)) p0 =
        some (if np = p0 then npc ++ children else p0l) := by
      rw [mget_mset]
      by_cases h : np = p0
      · rw [if_pos h, if_pos h]
      · rw [if_neg h, if_neg h]
        exact hp0l
    -- the spliced intermediate tree
    have hlive2 : ∀ x, live { t with
        parent_to_children := mset t.parent_to_children np (npc ++ children),
        child_to_parent :=
          children.foldl (fun m c => mset m c np) t.child_to_parent } x ↔
        live t x := by
      intro x
      unfold live
      simp only
      rw [mhas_mset]
      by_cases h : np = x
      · rw [if_pos h, ← h]
        unfold live at hnplive
        rw [hnplive]
      · rw [if_neg h]
    have hctp2eq : ∀ x, mget { t with
        parent_to_children := mset t.parent_to_children np (npc ++ children),
        child_to_parent :=
          children.foldl (fun m c => mset m c np) t.child_to_parent
          }.child_to_parent x =
        if x ∈ children then some np else mget t.child_to_parent x := by
      intro x
      simp only
      rw [fold_mset_mget]
    have hmhasctp2 : ∀ x, mhas (children.foldl (fun m c => mset m c np)
        t.child_to_parent) x = mhas t.child_to_parent x := by
      intro x
      unfold mhas
      rw [fold_mset_mget]
      by_cases h : x ∈ children
      · rw [if_pos h]
        have := (hchildmem x).1 h
        rw [this]
        rfl
      · rw [if_neg h]
    have htx : TreeWFx { t with
        parent_to_children := mset t.parent_to_children np (npc ++ children),
        child_to_parent :=
          children.foldl (fun m c => mset m c np) t.child_to_parent }
        item depth B := by
      refine ⟨?_, ?_, ?_, ?_, ?_, ?_, ?_, ?_⟩
      · rw [show ({ t with
            parent_to_children := mset t.parent_to_children np (npc ++ children),
            child_to_parent := children.foldl (fun m c => mset m c np)
              t.child_to_parent } : ItemTree).root = t.root from rfl]
        exact (hlive2 t.root).2 hwf.root_live
      · rw [hctp2eq]
        have hrch : t.root ∉ children := by
          intro h
          have := (hchildmem t.root).1 h
          rw [hwf.root_no_parent] at this
          cases this
        rw [if_neg hrch]
        exact hwf.root_no_parent
      · intro x hx
        have h1 : mhas (mset t.parent_to_children np (npc ++ children)) x =
            mhas t.parent_to_children x := by
          rw [mhas_mset]
          by_cases h : np = x
          · rw [if_pos h, ← h]
            unfold live at hnplive
            rw [hnplive]
          · rw [if_neg h]
        rw [h1, hmhasctp2 x]
        exact hwf.live_iff x hx
      · intro c p hc
        rw [hctp2eq] at hc
        show mhas (mset t.parent_to_children np (npc ++ children)) p = true
        rw [mhas_mset]
        by_cases h : np = p
        · rw [if_pos h]
        · rw [if_neg h]
          by_cases hcC : c ∈ children
          · rw [if_pos hcC] at hc
            injection hc with hc
            exact absurd hc h
          · rw [if_neg hcC] at hc
            exact hwf.parent_live c p hc
      · intro p l hpitem hpl c
        have hpl' : (if np = p then some (npc ++ children)
            else mget t.parent_to_children p) = some l := by
          rw [← hpl]
          show _ = mget (mset t.parent_to_children np (npc ++ children)) p
          rw [mget_mset]
        rw [hctp2eq]
        by_cases h : np = p
        · rw [if_pos h] at hpl'
          injection hpl' with hpl'
          subst hpl'
          subst h
          constructor
          · intro hcl
            rcases List.mem_append.1 hcl with hcnpc | hcC
            · have hcnp := (hwf.children_mem np npc hnpc c).1 hcnpc
              by_cases hcC : c ∈ children
              · rw [if_pos hcC]
              · rw [if_neg hcC]
                exact hcnp
            · rw [if_pos hcC]
          · intro hc
            by_cases hcC : c ∈ children
            · exact List.mem_append_right _ hcC
            · rw [if_neg hcC] at hc
              exact List.mem_append_left _
                ((hwf.children_mem np npc hnpc c).2 hc)
        · rw [if_neg h] at hpl'
          have hbase := hwf.children_mem p l hpl' c
          constructor
          · intro hcl
            have hcp := hbase.1 hcl
            by_cases hcC : c ∈ children
            · have := (hchildmem c).1 hcC
              rw [this] at hcp
              injection hcp with hcp
              exact absurd hcp.symm hpitem
            · rw [if_neg hcC]
              exact hcp
          · intro hc
            by_cases hcC : c ∈ children
            · rw [if_pos hcC] at hc
              injection hc with hc
              exact absurd hc h
            · rw [if_neg hcC] at hc
              exact hbase.2 hc
      · intro p l hpitem hpl
        have hpl' : (if np = p then some (npc ++ children)
            else mget t.parent_to_children p) = some l := by
          rw [← hpl]
          show _ = mget (mset t.parent_to_children np (npc ++ children)) p
          rw [mget_mset]
        by_cases h : np = p
        · rw [if_pos h] at hpl'
          injection hpl' with hpl'
          subst hpl'
          rw [List.nodup_append]
          refine ⟨hwf.children_nodup np npc hnpc,
            hwf.children_nodup item children hptc, ?_⟩
          intro c hc1 hc2
          have e1 := (hwf.children_mem np npc hnpc c).1 hc1
          have e2 := (hchildmem c).1 hc2
          rw [e1] at e2
          injection e2 with e2
          exact hnpitem e2
        · rw [if_neg h] at hpl'
          exact hwf.children_nodup p l hpl'
      · intro c p hc
        rw [hctp2eq] at hc
        by_cases hcC : c ∈ children
        · rw [if_pos hcC] at hc
          injection hc with hc
          subst hc
          have h1 := hwf.depth_lt c item ((hchildmem c).1 hcC)
          omega
        · rw [if_neg hcC] at hc
          exact hwf.depth_lt c p hc
      · intro c hc
        have := (hlive2 c).1 hc
        exact hwf.depth_le c this
    have hnochild2 : ∀ c, mget (children.foldl (fun m c => mset m c np)
        t.child_to_parent) c ≠ some item := by
      intro c hc
      rw [fold_mset_mget] at hc
      by_cases hcC : c ∈ children
      · rw [if_pos hcC] at hc
        injection hc with hc
        exact hnpitem hc
      · rw [if_neg hcC] at hc
        exact hcC ((hchildmem c).2 hc)
    obtain ⟨hwf3, hpop, hpopctp, hroot3⟩ :=
      pop_spec htx rfl hnochild2 hipq hplq rfl
    refine ⟨_, ?_, hwf3, by rw [hroot3]; exact hroot, ?_, ?_⟩
    · rw [removeLoop, hptc]
      simp only [if_neg hch, hip, hclimb, hnpc, hipq, hplq, if_true,
        String.reduceEq, if_false]
    · intro x
      rw [hpop x, hlive2 x, hchar x]
      simp only [List.mem_append, List.mem_singleton]
      constructor
      · rintro ⟨⟨h1, h2⟩, h3⟩
        exact ⟨h1, by rintro (h | h); exact h2 h; exact h3 h⟩
      · rintro ⟨h1, h2⟩
        exact ⟨⟨h1, fun h => h2 (Or.inl h)⟩, fun h => h2 (Or.inr h)⟩
    · intro x hlx3 hxroot
      have hxitem : x ≠ item := ((hpop x).1 hlx3).2
      have hlx : live t x := (hlive2 x).1 ((hpop x).1 hlx3).1
      rw [hpopctp x hxitem, hctp2eq x]
      by_cases hxC : x ∈ children
      · rw [if_pos hxC]
        have hx0 : mget t0.child_to_parent x = some item :=
          hchildorig x ((hchildmem x).1 hxC)
        simp only [currentParent, hx0,
          if_pos (List.mem_append_right _ (List.mem_singleton.2 rfl))]
        rw [resolveOut, firstOutside_cons, if_pos hitemS, hnp]
      · rw [if_neg hxC, hcur x hlx hxroot, hcur_adv x hlx hxroot hxC]

/-- The whole reparent-mode loop: starting from a state satisfying the
invariant with processed prefix P, it runs to completion without error,
returns the pending items in iteration order, and leaves a well-formed
tree in which exactly the removal set is gone and every survivor's parent
is its nearest original ancestor outside the removal set. -/
theorem removeLoop_reparent_spec {t0 : ItemTree} {depth : TreeItem → Nat}
    {B : Nat} {S : List TreeItem}
    (hwf0 : TreeWF t0 depth B)
    (hS : S.Nodup) (hrootS : t0.root ∉ S)
    (hSlive : ∀ i ∈ S, live t0 i)
    {fuel : Nat} (hfuel : B + 2 ≤ fuel) :
    ∀ (pending P : List TreeItem), S = P ++ pending →
    ∀ (t : ItemTree) (removed : List TreeItem),
    TreeWF t depth B → t.root = t0.root →
    (∀ x, live t x ↔ (live t0 x ∧ x ∉ P)) →
    (∀ x, live t x → x ≠ t0.root →
      mget t.child_to_parent x = currentParent t0 B S P x) →
    ∃ t3, removeLoop fuel t pending S "reparent" removed =
        some (t3, Except.ok (removed ++ pending)) ∧
      TreeWF t3 depth B ∧ t3.root = t0.root ∧
      (∀ x, live t3 x ↔ (live t0 x ∧ x ∉ S)) ∧
      (∀ x, live t3 x → x ≠ t0.root →
        mget t3.child_to_parent x = currentParent t0 B S S x) := by
  intro pending
  induction pending with
  | nil =>
    intro P hSP t removed hwf hroot hchar hcur
    rw [List.append_nil] at hSP
    subst hSP
    refine ⟨t, ?_, hwf, hroot, hchar, hcur⟩
    rw [List.append_nil, removeLoop]
  | cons item rest ih =>
    intro P hSP t removed hwf hroot hchar hcur
    have hPS : ∀ i ∈ P, i ∈ S := by
      intro i hi
      rw [hSP]
      exact List.mem_append_left _ hi
    have hitemS : item ∈ S := by
      rw [hSP]
      exact List.mem_append_right _ (List.mem_cons_self _ _)
    have hitemP : item ∉ P := by
      intro hiP
      have hnd := hS
      rw [hSP] at hnd
      exact (List.nodup_append.1 hnd).2.2 hiP (List.mem_cons_self _ _)
    have hlive0 : live t0 item := hSlive item hitemS
    have hlitem : live t item := (hchar item).2 ⟨hlive0, hitemP⟩
    obtain ⟨children, hptc⟩ := (mhas_iff _ _).1 hlitem
    obtain ⟨t3, hrun, hwf3, hroot3, hchar3, hcur3⟩ :=
      reparent_step hwf0 hrootS hfuel hwf hroot hchar hcur hPS hitemS hitemP
        hlive0 hptc rest removed
    have hSP3 : S = (P ++ [item]) ++ rest := by
      rw [hSP, List.append_assoc]
      rfl
    obtain ⟨t4, hrun4, hwf4, hroot4, hchar4, hcur4⟩ :=
      ih (P ++ [item]) hSP3 t3 (removed ++ [item]) hwf3 hroot3 hchar3 hcur3
    refine ⟨t4, ?_, hwf4, hroot4, hchar4, hcur4⟩
    rw [hrun, hrun4, List.append_assoc]
    rfl

/-- Lookup table of treeC8's parent-to-children dict. -/
theorem treeC8_mget_ptc (x : TreeItem) :
    mget treeC8.parent_to_children x =
      if x = rootItem then some [itemA]
      else if x = itemA then some [itemB]
      else if x = itemB then some [] else none := by
  by_cases h0 : x = rootItem
  · subst h0; decide
  · by_cases h1 : x = itemA
    · subst h1; decide
    · by_cases h2 : x = itemB
      · subst h2; decide
      · have h0s : ¬ (rootItem = x) := fun h => h0 h.symm
        have h1s : ¬ (itemA = x) := fun h => h1 h.symm
        have h2s : ¬ (itemB = x) := fun h => h2 h.symm
        simp [treeC8, mget, h0, h1, h2, h0s, h1s, h2s]

/-- Lookup table of treeC8's child-to-parent dict. -/
theorem treeC8_mget_ctp (x : TreeItem) :
    mget treeC8.child_to_parent x =
      if x = itemA then some rootItem
      else if x = itemB then some itemA else none := by
  by_cases h1 : x = itemA
  · subst h1; decide
  · by_cases h2 : x = itemB
    · subst h2; decide
    · have h1s : ¬ (itemA = x) := fun h => h1 h.symm
      have h2s : ¬ (itemB = x) := fun h => h2 h.symm
      simp [treeC8, mget, h1, h2, h1s, h2s]

/-- treeC8 is well-formed with the explicit depth measure bounded by 2. -/
theorem treeC8_wf : TreeWF treeC8 depthC8 2 := by
  refine ⟨by decide, by decide, ?_, ?_, ?_, ?_, ?_, ?_⟩
  · intro x hx
    have hx0 : ¬ (x = rootItem) := hx
    rw [mhas, mhas, treeC8_mget_ptc, treeC8_mget_ctp, if_neg hx0]
    by_cases h1 : x = itemA
    · rw [if_pos h1, if_pos h1]
      decide
    · rw [if_neg h1, if_neg h1]
      by_cases h2 : x = itemB
      · rw [if_pos h2, if_pos h2]
        decide
      · rw [if_neg h2, if_neg h2]
        decide
  · intro c p h
    rw [treeC8_mget_ctp] at h
    by_cases h1 : c = itemA
    · rw [if_pos h1] at h
      injection h with h
      subst h
      decide
    · rw [if_neg h1] at h
      by_cases h2 : c = itemB
      · rw [if_pos h2] at h
        injection h with h
        subst h
        decide
      · rw [if_neg h2] at h
        cases h
  · intro p l hpl c
    rw [treeC8_mget_ptc] at hpl
    rw [treeC8_mget_ctp]
    by_cases h0 : p = rootItem
    · rw [if_pos h0] at hpl
      injection hpl with hpl
      subst hpl
      subst h0
      by_cases hc1 : c = itemA
      · subst hc1; decide
      · rw [if_neg hc1]
        simp only [List.mem_singleton]
        constructor
        · intro h; exact absurd h hc1
        · intro h
          by_cases hc2 : c = itemB
          · rw [if_pos hc2] at h
            injection h with h
            exact absurd h (by decide)
          · rw [if_neg hc2] at h
            cases h
    · rw [if_neg h0] at hpl
      by_cases h1 : p = itemA
      · rw [if_pos h1] at hpl
        injection hpl with hpl
        subst hpl
        subst h1
        by_cases hc2 : c = itemB
        · subst hc2; decide
        · rw [if_neg hc2]
          simp only [List.mem_singleton]
          constructor
          · intro h; exact absurd h hc2
          · intro h
            by_cases hc1 : c = itemA
            · rw [if_pos hc1] at h
              injection h with h
              exact absurd h (by decide)
            · rw [if_neg hc1] at h
              cases h
      · rw [if_neg h1] at hpl
        by_cases h2 : p = itemB
        · rw [if_pos h2] at hpl
          injection hpl with hpl
          subst hpl
          subst h2
          simp only [List.not_mem_nil, false_iff]
          intro h
          by_cases hc1 : c = itemA
          · rw [if_pos hc1] at h
            injection h with h
            exact absurd h (by decide)
          · rw [if_neg hc1] at h
            by_cases hc2 : c = itemB
            · rw [if_pos hc2] at h
              injection h with h
              exact absurd h (by decide)
            · rw [if_neg hc2] at h
              cases h
        · rw [if_neg h2] at hpl
          cases hpl
  · intro p l hpl
    rw [treeC8_mget_ptc] at hpl
    by_cases h0 : p = rootItem
    · rw [if_pos h0] at hpl
      injection hpl with hpl
      subst hpl
      decide
    · rw [if_neg h0] at hpl
      by_cases h1 : p = itemA
      · rw [if_pos h1] at hpl
        injection hpl with hpl
        subst hpl
        decide
      · rw [if_neg h1] at hpl
        by_cases h2 : p = itemB
        · rw [if_pos h2] at hpl
          injection hpl with hpl
          subst hpl
          decide
        · rw [if_neg h2] at hpl
          cases hpl
  · intro c p h
    rw [treeC8_mget_ctp] at h
    by_cases h1 : c = itemA
    · rw [if_pos h1] at h
      injection h with h
      subst h
      subst h1
      decide
    · rw [if_neg h1] at h
      by_cases h2 : c = itemB
      · rw [if_pos h2] at h
        injection h with h
        subst h
        subst h2
        decide
      · rw [if_neg h2] at h
        cases h
  · intro c h
    rw [mhas, treeC8_mget_ptc] at h
    by_cases h0 : c = rootItem
    · subst h0; decide
    · rw [if_neg h0] at h
      by_cases h1 : c = itemA
      · subst h1; decide
      · rw [if_neg h1] at h
        by_cases h2 : c = itemB
        · subst h2; decide
        · rw [if_neg h2] at h
          simp at h

/-- C8: for every well-formed ItemTree and item list passed to remove_items:
(i) any childAction other than delete or reparent yields ValueError with the
tree unchanged, before any mutation; (ii) the root is discarded from the
input set: the call behaves exactly as if the root had not been passed;
(iii) with childAction reparent, exactly the (root-discarded) input items
disappear, the root survives, and every child of a removed item is
re-attached to its nearest ancestor outside the removed set (the first
member of its original ancestor chain not in the set); (iv) with
childAction delete, the root survives, every descendant of a removed item
is removed as well, and on a successful run every non-root input item is
removed. -/
theorem C8_remove_items {t : ItemTree} {depth : TreeItem → Nat} {B : Nat}
    (hwf : TreeWF t depth B) (items : List TreeItem) (fuel : Nat) :
    (∀ ca, ca ≠ "delete" → ca ≠ "reparent" → 1 ≤ fuel →
      remove_items fuel t items ca =
        some (t, Except.error TreeExc.valueError)) ∧
    (∀ ca, (ca = "delete" ∨ ca = "reparent") → 1 ≤ fuel →
      remove_items fuel t items ca =
        remove_items fuel t
          (items.filter (fun i => decide (¬ i = t.root))) ca) ∧
    (items.Nodup → t.root ∉ items → (∀ i ∈ items, live t i) →
      B + 3 ≤ fuel →
      ∃ t3, remove_items fuel t items "reparent" =
          some (t3, Except.ok items) ∧
        live t3 t.root ∧
        (∀ x, live t3 x ↔ (live t x ∧ x ∉ items)) ∧
        (∀ c i, mget t.child_to_parent c = some i → i ∈ items →
          c ∉ items →
          mget t3.child_to_parent c =
            firstOutside items (ancChain t (B + 1) c))) ∧
    (B + 2 ≤ fuel → ∀ t2 res,
      remove_items fuel t items "delete" = some (t2, res) →
      live t2 t.root ∧
      (∀ x y, live t x → ¬ live t2 x → x ∈ ancChain t (B + 1) y →
        ¬ live t2 y) ∧
      (∀ rs, res = Except.ok rs → ∀ i ∈ items, i ≠ t.root →
        ¬ live t2 i)) := by
  refine ⟨?_, ?_, ?_, ?_⟩
  · -- (i) invalid childAction: ValueError, tree untouched
    intro ca hca1 hca2 hf
    cases fuel with
    | zero => omega
    | succ f =>
      have h : ¬ (ca = "delete" ∨ ca = "reparent") := by
        rintro (h | h)
        · exact hca1 h
        · exact hca2 h
      rw [remove_items, if_neg h]
  · -- (ii) the root is discarded from the input set
    intro ca hca hf
    cases fuel with
    | zero => omega
    | succ f =>
      have hfp : ∀ a ∈ items.filter (fun i => decide (¬ i = t.root)),
          (fun i => decide (¬ i = t.root)) a = true :=
        fun a ha => (List.mem_filter.1 ha).2
      rw [remove_items, remove_items, if_pos hca, if_pos hca,
        List.filter_eq_self.2 hfp]
  · -- (iii) reparent
    intro hnd hroots hlive hf
    cases fuel with
    | zero => omega
    | succ f =>
      have hfp : ∀ a ∈ items, (fun i => decide (¬ i = t.root)) a = true := by
        intro a ha
        simp only [decide_eq_true_eq]
        intro h
        rw [h] at ha
        exact hroots ha
      have hfilter : items.filter (fun i => decide (¬ i = t.root)) = items :=
        List.filter_eq_self.2 hfp
      by_cases hie : items = []
      · subst hie
        refine ⟨t, ?_, hwf.root_live, ?_, ?_⟩
        · rw [remove_items]
          simp
        · intro x
          simp
        · intro c i _ hi
          cases hi
      · have hchar0 : ∀ x, live t x ↔
            (live t x ∧ x ∉ ([] : List TreeItem)) := by
          intro x
          simp
        have hcur0 : ∀ x, live t x → x ≠ t.root →
            mget t.child_to_parent x = currentParent t B items [] x := by
          intro x _ _
          cases hct : mget t.child_to_parent x with
          | none => simp [currentParent, hct]
          | some p => simp [currentParent, hct]
        obtain ⟨t3, hrun, hwf3, hroot3, hchar3, hcur3⟩ :=
          removeLoop_reparent_spec hwf hnd hroots hlive
            (show B + 2 ≤ f by omega) items [] rfl t [] hwf rfl hchar0 hcur0
        refine ⟨t3, ?_, (hchar3 t.root).2 ⟨hwf.root_live, hroots⟩,
          hchar3, ?_⟩
        · rw [remove_items, if_pos (Or.inr rfl), hfilter, if_neg hie]
          exact hrun
        · intro c i hc hi hci
          have hlc : live t c := hwf.child_live hc
          have hcroot : c ≠ t.root := hwf.child_ne_root hc
          have hl3 : live t3 c := (hchar3 c).2 ⟨hlc, hci⟩
          rw [hcur3 c hl3 hcroot]
          simp only [currentParent, hc, if_pos hi]
          rw [resolveOut, anc_step hwf hc]
  · -- (iv) delete
    intro hf t2 res hrun
    cases fuel with
    | zero => omega
    | succ f =>
      rw [remove_items, if_pos (Or.inl rfl)] at hrun
      by_cases hse : items.filter (fun i => decide (¬ i = t.root)) = []
      · rw [if_pos hse] at hrun
        simp only [Option.some.injEq, Prod.mk.injEq] at hrun
        obtain ⟨h1, h2⟩ := hrun
        subst h1
        subst h2
        refine ⟨hwf.root_live, fun x y h1 h2 _ => absurd h1 h2, ?_⟩
        intro rs _ i hi hir
        have hmem : i ∈ items.filter (fun i => decide (¬ i = t.root)) :=
          List.mem_filter.2 ⟨hi, by simpa using hir⟩
        rw [hse] at hmem
        cases hmem
      · rw [if_neg hse] at hrun
        have hpend : ∀ i ∈ items.filter (fun i => decide (¬ i = t.root)),
            i ≠ t.root := by
          intro i hi
          have := (List.mem_filter.1 hi).2
          simpa using this
        have hfuelP : ∀ i ∈ items.filter (fun i => decide (¬ i = t.root)),
            B < depth i + f := by
          intro i _
          omega
        obtain ⟨t2x, resx, P, heq, hpre, hwf2, hroot2, hchar2, hctp2, hok,
            hres, herr⟩ :=
          removeLoop_delete_spec f depth B
            (items.filter (fun i => decide (¬ i = t.root)))
            (items.filter (fun i => decide (¬ i = t.root)))
            t [] hwf hpend hfuelP
        rw [heq] at hrun
        simp only [Option.some.injEq, Prod.mk.injEq] at hrun
        obtain ⟨h1, h2⟩ := hrun
        subst h1
        subst h2
        have hProot : ∀ i ∈ P, i ≠ t.root :=
          fun i hi => hpend i (hpre.sublist.subset hi)
        refine ⟨?_, ?_, ?_⟩
        · refine (hchar2 t.root).2 ⟨hwf.root_live, ?_⟩
          rintro ⟨i, hiP, hii⟩
          rcases hii with h | h
          · exact hProot i hiP h
          · rw [anc_none (B + 1) hwf.root_no_parent] at h
            cases h
        · intro x y hx1 hx2 hxy hy2
          obtain ⟨hyl, hyno⟩ := (hchar2 y).1 hy2
          have hex : ∃ i ∈ P, i = x ∨ i ∈ ancChain t (B + 1) x := by
            by_contra hno
            exact hx2 ((hchar2 x).2 ⟨hx1, hno⟩)
          obtain ⟨i, hiP, hii⟩ := hex
          apply hyno
          refine ⟨i, hiP, Or.inr ?_⟩
          rcases hii with h | h
          · rw [h]
            exact hxy
          · exact anc_trans hwf (depth y) y x i le_rfl hxy h
        · intro rs hres2 i hi hir hl2
          have hPall : P = items.filter (fun i => decide (¬ i = t.root)) :=
            hok ⟨rs, hres2⟩
          have hiS : i ∈ items.filter (fun i => decide (¬ i = t.root)) :=
            List.mem_filter.2 ⟨hi, by simpa using hir⟩
          obtain ⟨_, hno⟩ := (hchar2 i).1 hl2
          refine hno ⟨i, ?_, Or.inl rfl⟩
          rw [hPall]
          exact hiS

/-- Witness: removing itemA from the chain root -> A -> B in reparent mode
succeeds, the root survives, exactly itemA disappears, and itemB is
re-attached to the nearest surviving ancestor on its original chain. -/
theorem C8_witness :
    TreeWF treeC8 depthC8 2 ∧
    ∃ t3, remove_items 5 treeC8 [itemA] "reparent" =
        some (t3, Except.ok [itemA]) ∧
      live t3 treeC8.root ∧
      (∀ x, live t3 x ↔ (live treeC8 x ∧ x ∉ [itemA])) ∧
      (∀ c i, mget treeC8.child_to_parent c = some i → i ∈ [itemA] →
        c ∉ [itemA] →
        mget t3.child_to_parent c =
          firstOutside [itemA] (ancChain treeC8 3 c)) :=
  ⟨treeC8_wf,
    (C8_remove_items treeC8_wf [itemA] 5).2.2.1 (by decide) (by decide)
      (by decide) (by decide)⟩

end UsdQtpy